import Mathlib

/-!
Verification of `scripts/oracle_javadoc_seed.py`: a shallow embedding of the
seed-URL derivation pipeline (parsing the embedded search-index arrays,
building the package-to-module mapping, deriving and encoding the seed URLs)
together with models of the parts of CPython 3.11's standard library the
script uses (`urllib.parse.urlsplit` / `urlunsplit` / `urljoin` / `quote` /
`quote_plus`, `json.loads`, `re` scanning for the two regular expressions in
the script, `str.strip` / `str.split` / `str.lower`, `sorted`, `set`, `dict`).

Network fetching (`fetch_text`) is I/O and is not modelled: the pure
derivation takes the three fetched texts as arguments.  Python exceptions are
modelled as `Except.error`.
-/

set_option maxHeartbeats 1600000

namespace OracleJavadocSeed

/-! ### Python string ordering, `sorted`, and `set`

Python compares `str` values lexicographically by Unicode code point; `sorted`
on a `set` of strings therefore yields the unique strictly increasing
enumeration of its members.  Lean `Char` values are Unicode scalar values, so
comparing `Char.toNat` matches Python's comparison on the strings that occur
here. -/

/-- Strict lexicographic order on char lists by code point, as Python's `<`
on `str`. -/
def charListLt : List Char → List Char → Bool
  | [], [] => false
  | [], _ :: _ => true
  | _ :: _, [] => false
  | a :: as, b :: bs =>
    if a.toNat < b.toNat then true
    else if a.toNat = b.toNat then charListLt as bs
    else false

/-- Python's `s < t` on strings. -/
def strLt (s t : String) : Bool := charListLt s.data t.data

/-- Insert into a list sorted by `strLt` (ascending). -/
def insertSorted (x : String) : List String → List String
  | [] => [x]
  | y :: ys => if strLt x y then x :: y :: ys else y :: insertSorted x ys

/-- Insertion sort by `strLt`: on duplicate-free lists this is the unique
strictly ascending enumeration, i.e. Python's `sorted`. -/
def insertionSort : List String → List String
  | [] => []
  | x :: xs => insertSorted x (insertionSort xs)

/-- Deduplication (Python `set` semantics; which occurrence is kept is
irrelevant because a set is unordered). -/
def pyDedup : List String → List String
  | [] => []
  | x :: xs => if xs.contains x then pyDedup xs else x :: pyDedup xs

/-- Python's `sorted(set(l))` for a list of the set's insertions. -/
def pySortedSet (l : List String) : List String := insertionSort (pyDedup l)

/-- Python's `set.add`: membership-preserving insertion. -/
def pySetAdd (l : List String) (x : String) : List String :=
  if l.contains x then l else l ++ [x]

/-- True iff the list is strictly ascending in `strLt` (hence also
duplicate-free): the shape of a correctly sorted, deduplicated output. -/
def isSortedStrict : List String → Bool
  | [] => true
  | [_] => true
  | a :: b :: rest => strLt a b && isSortedStrict (b :: rest)

/-! ### `urllib.parse.urlsplit` / `urlunsplit` (CPython 3.11)

The model covers `urlsplit(url, scheme='', allow_fragments=True)` as in
CPython 3.11 `Lib/urllib/parse.py`: removal of the WHATWG-unsafe bytes
tab/CR/LF, scheme detection (a leading ASCII letter followed by
letters/digits/`+-.` up to the first `:`), lowercasing of a detected scheme,
netloc extraction after `//` up to the first of `/?#` with the unbalanced
square-bracket check (`raise ValueError("Invalid IPv6 URL")`), then the
fragment split at the first `#` and the query split at the first `?`.
(`_checknetloc`, which can only raise for non-ASCII netlocs that NFKC
normalization changes, is not modelled; every netloc reached in this
development is ASCII.) -/

structure SplitResult where
  scheme : List Char
  netloc : List Char
  path : List Char
  query : List Char
  fragment : List Char
deriving Repr, DecidableEq

/-- Split at the first character satisfying `p`: the part before it, and
(when found) the part after it with the splitting character dropped.  This is
Python's `s.split(c, 1)` as well as `s.find(c)` plus slicing. -/
def splitOnFirst (p : Char → Bool) : List Char → List Char × Option (List Char)
  | [] => ([], none)
  | c :: cs =>
    if p c then ([], some cs)
    else
      let r := splitOnFirst p cs
      (c :: r.1, r.2)

/-- The bytes CPython removes from a URL before parsing
(`_UNSAFE_URL_BYTES_TO_REMOVE`). -/
def tabCrLf (c : Char) : Bool := c == '\t' || c == '\r' || c == '\n'

def urlByteFilter (l : List Char) : List Char := l.filter (fun c => !tabCrLf c)

/-- CPython's `scheme_chars`. -/
def schemeChars : List Char :=
  "abcdefghijklmnopqrstuvwxyzABCDEFGHIJKLMNOPQRSTUVWXYZ0123456789+-.".data

def asciiAlphaChars : List Char :=
  "abcdefghijklmnopqrstuvwxyzABCDEFGHIJKLMNOPQRSTUVWXYZ".data

def asciiUpperChars : List Char := "ABCDEFGHIJKLMNOPQRSTUVWXYZ".data

/-- Python `str.lower` restricted to the ASCII range (the only strings the
script lowercases are validated URL schemes, which are ASCII). -/
def pyLowerChar (c : Char) : Char :=
  if asciiUpperChars.contains c then Char.ofNat (c.toNat + 32) else c

def pyLower (l : List Char) : List Char := l.map pyLowerChar

/-- The scheme test of `urlsplit`: `i > 0 and url[0].isascii() and
url[0].isalpha()` and every char of `url[1:i]` in `scheme_chars`. -/
def schemeOk : List Char → Bool
  | [] => false
  | c :: cs => asciiAlphaChars.contains c && cs.all (fun d => schemeChars.contains d)

/-- The delimiters `_splitnetloc` stops at. -/
def netlocStop (c : Char) : Bool := c == '/' || c == '?' || c == '#'

/-- The unbalanced-bracket test that makes `urlsplit` raise
"Invalid IPv6 URL". -/
def bracketMismatch (netloc : List Char) : Bool :=
  (netloc.contains '[' && !netloc.contains ']') ||
  (netloc.contains ']' && !netloc.contains '[')

/-- The fragment split (first `#`) then the query split (first `?`), in
`urlsplit`'s order. -/
def finishSplit (scheme netloc rest : List Char) : SplitResult :=
  let h := splitOnFirst (fun c => c == '#') rest
  let q := splitOnFirst (fun c => c == '?') h.1
  ⟨scheme, netloc, q.1, (q.2).getD [], (h.2).getD []⟩

/-- `urllib.parse.urlsplit(url, scheme=defScheme)` on char lists.  An
`Except.error` is a raised `ValueError`. -/
def urlsplitL (url0 defScheme0 : List Char) : Except String SplitResult :=
  let url := urlByteFilter url0
  let defScheme := urlByteFilter defScheme0
  let sr :=
    match splitOnFirst (fun c => c == ':') url with
    | (pre, some post) => if schemeOk pre then (pyLower pre, post) else (defScheme, url)
    | (_, none) => (defScheme, url)
  match sr.2 with
  | '/' :: '/' :: r2 =>
    let netloc := r2.takeWhile (fun c => !netlocStop c)
    let r3 := r2.dropWhile (fun c => !netlocStop c)
    if bracketMismatch netloc then Except.error "Invalid IPv6 URL"
    else Except.ok (finishSplit sr.1 netloc r3)
  | _ => Except.ok (finishSplit sr.1 [] sr.2)

/-- The second half of `urlsplit`: netloc detection behind `//`, the
bracket check, and the fragment and query splits.  `urlsplitL u d` equals
this applied to the detected scheme and remainder (`urlsplitL_eq`). -/
def splitTail (s t : List Char) : Except String SplitResult :=
  match t with
  | '/' :: '/' :: r2 =>
    let netloc := r2.takeWhile (fun c => !netlocStop c)
    let r3 := r2.dropWhile (fun c => !netlocStop c)
    if bracketMismatch netloc then Except.error "Invalid IPv6 URL"
    else Except.ok (finishSplit s netloc r3)
  | _ => Except.ok (finishSplit s [] t)

/-- `urllib.parse.urlunsplit` on char lists. -/
def urlunsplitL (r : SplitResult) : List Char :=
  let url1 :=
    if r.netloc ≠ [] ∨ r.path.take 2 = ['/', '/'] then
      let p := if r.path ≠ [] ∧ r.path.take 1 ≠ ['/'] then '/' :: r.path else r.path
      '/' :: '/' :: (r.netloc ++ p)
    else r.path
  let url2 := if r.scheme ≠ [] then r.scheme ++ ':' :: url1 else url1
  let url3 := if r.query ≠ [] then url2 ++ '?' :: r.query else url2
  if r.fragment ≠ [] then url3 ++ '#' :: r.fragment else url3

/-! ### `urllib.parse.quote` / `quote_plus` -/

/-- CPython's `_ALWAYS_SAFE`: ASCII letters, digits and `_.-~`. -/
def alwaysSafeChars : List Char :=
  "ABCDEFGHIJKLMNOPQRSTUVWXYZabcdefghijklmnopqrstuvwxyz0123456789_.-~".data

def hexUpperDigit (n : Nat) : Char := "0123456789ABCDEF".data.getD n '0'

/-- UTF-8 bytes of a scalar value (Python `str.encode('utf-8')`, which
`quote` applies before percent-encoding). -/
def utf8Bytes (c : Char) : List Nat :=
  let n := c.toNat
  if n < 0x80 then [n]
  else if n < 0x800 then [0xC0 + n / 0x40, 0x80 + n % 0x40]
  else if n < 0x10000 then
    [0xE0 + n / 0x1000, 0x80 + n / 0x40 % 0x40, 0x80 + n % 0x40]
  else
    [0xF0 + n / 0x40000, 0x80 + n / 0x1000 % 0x40, 0x80 + n / 0x40 % 0x40,
     0x80 + n % 0x40]

def pctEncodeByte (b : Nat) : List Char := ['%', hexUpperDigit (b / 16), hexUpperDigit (b % 16)]

/-- One character under `quote(s, safe)`: kept when it is in
`_ALWAYS_SAFE` or in `safe` (both ASCII here), else each UTF-8 byte becomes
`%XX` with uppercase hex. -/
def quoteChar (safe : List Char) (c : Char) : List Char :=
  if alwaysSafeChars.contains c || safe.contains c then [c]
  else (utf8Bytes c).flatMap pctEncodeByte

def quoteL (safe l : List Char) : List Char := l.flatMap (quoteChar safe)

/-- `urllib.parse.quote_plus(s, safe)`: when a space occurs, quote with the
space added to `safe` and then replace each space by `+`. -/
def quotePlusL (safe l : List Char) : List Char :=
  if l.contains ' ' then
    (quoteL (safe ++ [' ']) l).map (fun c => if c == ' ' then '+' else c)
  else quoteL safe l

/-- The `safe` argument (slash, dash, dot, underscore, tilde) of
`encode_url`'s path quoting. -/
def pathSafeChars : List Char := "/-._~".data

/-- The `safe` argument `"=&"` of `encode_url`'s query quoting. -/
def querySafeChars : List Char := "=&".data

/-- `encode_url` from the script: split, percent-encode path and query,
reassemble; scheme, netloc and fragment are passed through. -/
def encode_urlL (l : List Char) : Except String (List Char) :=
  match urlsplitL l [] with
  | Except.error e => Except.error e
  | Except.ok parsed =>
    Except.ok (urlunsplitL ⟨parsed.scheme, parsed.netloc,
      quoteL pathSafeChars parsed.path, quotePlusL querySafeChars parsed.query,
      parsed.fragment⟩)

def encode_url (url : String) : Except String String :=
  (encode_urlL url.data).map List.asString

/-! ### `urllib.parse.urlparse` / `urlunparse` / `urljoin` (CPython 3.11)

`urljoin` resolves through `urlparse`, which additionally splits `;params`
off the last path segment for schemes in `uses_params`. -/

structure ParseResult where
  scheme : List Char
  netloc : List Char
  path : List Char
  params : List Char
  query : List Char
  fragment : List Char
deriving Repr, DecidableEq

def uses_relative : List (List Char) :=
  ["", "ftp", "http", "gopher", "nntp", "imap", "wais", "file", "https", "shttp",
   "mms", "prospero", "rtsp", "rtspu", "sftp", "svn", "svn+ssh", "ws", "wss"].map
    String.data

def uses_netloc : List (List Char) :=
  ["", "ftp", "http", "gopher", "nntp", "telnet", "imap", "wais", "file", "mms",
   "https", "shttp", "snews", "prospero", "rtsp", "rtspu", "rsync", "svn",
   "svn+ssh", "sftp", "nfs", "git", "git+ssh", "ws", "wss"].map String.data

def uses_params : List (List Char) :=
  ["", "ftp", "hdl", "prospero", "http", "imap", "https", "shttp", "rtsp",
   "rtspu", "sip", "sips", "mms", "sftp", "tel"].map String.data

/-- Split around the last `/`: `some (before, after)` with the input equal to
`before ++ slash :: after`, or `none` when there is no slash. -/
def splitLastSlash : List Char → Option (List Char × List Char)
  | [] => none
  | c :: cs =>
    match splitLastSlash cs with
    | some r => some (c :: r.1, r.2)
    | none => if c == '/' then some ([], cs) else none

/-- CPython's `_splitparams`: the first `;` in the last path segment starts
the params. -/
def splitParams (url : List Char) : List Char × List Char :=
  match splitLastSlash url with
  | some be =>
    match splitOnFirst (fun c => c == ';') be.2 with
    | (seg, some ps) => (be.1 ++ '/' :: seg, ps)
    | (_, none) => (url, [])
  | none =>
    match splitOnFirst (fun c => c == ';') url with
    | (seg, some ps) => (seg, ps)
    | (_, none) => (url, [])

def urlparseL (url defScheme : List Char) : Except String ParseResult :=
  match urlsplitL url defScheme with
  | Except.error e => Except.error e
  | Except.ok r =>
    if uses_params.contains r.scheme && r.path.contains ';' then
      let pp := splitParams r.path
      Except.ok ⟨r.scheme, r.netloc, pp.1, pp.2, r.query, r.fragment⟩
    else Except.ok ⟨r.scheme, r.netloc, r.path, [], r.query, r.fragment⟩

def urlunparseL (r : ParseResult) : List Char :=
  let url := if r.params ≠ [] then r.path ++ ';' :: r.params else r.path
  urlunsplitL ⟨r.scheme, r.netloc, url, r.query, r.fragment⟩

/-- Python `str.split(sep)` for a one-character separator: every occurrence
splits, empty pieces kept, and the empty string splits to `[""]`. -/
def pySplit : List Char → Char → List (List Char)
  | [], _ => [[]]
  | c :: cs, sep =>
    let r := pySplit cs sep
    if c == sep then [] :: r
    else
      match r with
      | h :: t => (c :: h) :: t
      | [] => [[c]]

/-- Drop empty segments but keep the final element whatever it is: the tail
part of the slice assignment `segments[1:-1] = filter(None, segments[1:-1])`. -/
def keepLastFilter : List (List Char) → List (List Char)
  | [] => []
  | [y] => [y]
  | y :: rest =>
    if y = [] then keepLastFilter rest else y :: keepLastFilter rest

/-- The slice assignment `segments[1:-1] = filter(None, segments[1:-1])`:
first and last elements kept, empty middle segments dropped. -/
def sliceMidFilter : List (List Char) → List (List Char)
  | [] => []
  | [x] => [x]
  | x :: rest => x :: keepLastFilter rest

def dotDotSeg : List Char := ['.', '.']

def dotSeg : List Char := ['.']

/-- The dot-segment loop of `urljoin`: `..` pops (ignoring pops of an empty
stack), `.` is dropped, anything else is pushed. -/
def resolveLoop (acc : List (List Char)) : List (List Char) → List (List Char)
  | [] => acc
  | seg :: rest =>
    if seg = dotDotSeg then resolveLoop acc.dropLast rest
    else if seg = dotSeg then resolveLoop acc rest
    else resolveLoop (acc ++ [seg]) rest

def resolveDots (segments : List (List Char)) : List (List Char) :=
  let resolved := resolveLoop [] segments
  match segments.getLast? with
  | some last =>
    if last = dotDotSeg ∨ last = dotSeg then resolved ++ [[]] else resolved
  | none => resolved

/-- `urllib.parse.urljoin(base, url)` as in CPython 3.11. -/
def urljoinL (base url : List Char) : Except String (List Char) :=
  if base = [] then Except.ok url
  else if url = [] then Except.ok base
  else
    match urlparseL base [] with
    | Except.error e => Except.error e
    | Except.ok b =>
      match urlparseL url b.scheme with
      | Except.error e => Except.error e
      | Except.ok r =>
        if ¬ (r.scheme = b.scheme ∧ uses_relative.contains r.scheme) then
          Except.ok url
        else
          let netlocKnown := uses_netloc.contains r.scheme
          if netlocKnown ∧ r.netloc ≠ [] then Except.ok (urlunparseL r)
          else
            let netloc := if netlocKnown then b.netloc else r.netloc
            if r.path = [] ∧ r.params = [] then
              let query := if r.query = [] then b.query else r.query
              Except.ok (urlunparseL ⟨r.scheme, netloc, b.path, b.params, query,
                r.fragment⟩)
            else
              let base_parts0 := pySplit b.path '/'
              let base_parts :=
                if base_parts0.getLast? ≠ some [] then base_parts0.dropLast
                else base_parts0
              let segments :=
                if r.path.take 1 = ['/'] then pySplit r.path '/'
                else sliceMidFilter (base_parts ++ pySplit r.path '/')
              let joined := List.intercalate ['/'] (resolveDots segments)
              let path := if joined = [] then ['/'] else joined
              Except.ok (urlunparseL ⟨r.scheme, netloc, path, r.params, r.query,
                r.fragment⟩)

def urljoin (base url : String) : Except String String :=
  (urljoinL base.data url.data).map List.asString

/-! ### `json.loads` (CPython's default decoder)

Numbers are kept exactly as the decimal `mantissa * 10 ^ exp10` (the binary
rounding of Python floats is not modelled; no claim compares numbers).  A
lone surrogate inside a `\uXXXX` escape is rejected by the model (CPython
would build a string holding the surrogate, which a Lean `Char` cannot hold;
no input in this development contains such an escape). -/

inductive Json where
  | null
  | bool (b : Bool)
  | num (mantissa : Int) (exp10 : Int)
  | str (s : String)
  | arr (elems : List Json)
  | obj (entries : List (String × Json))
  | nanConst
  | infConst (neg : Bool)
deriving Repr

/-- JSON interelement whitespace (strict: space, tab, newline, carriage
return only). -/
def jsonWS (c : Char) : Bool := c == ' ' || c == '\t' || c == '\n' || c == '\r'

def skipJsonWS (l : List Char) : List Char := l.dropWhile jsonWS

def hexVal (c : Char) : Option Nat :=
  if '0' ≤ c ∧ c ≤ '9' then some (c.toNat - 48)
  else if 'a' ≤ c ∧ c ≤ 'f' then some (c.toNat - 87)
  else if 'A' ≤ c ∧ c ≤ 'F' then some (c.toNat - 55)
  else none

/-- The body scanner of a JSON string, after the opening quote. -/
def jstringLoop : List Char → List Char → Except String (String × List Char)
  | [], _ => Except.error "json: Unterminated string"
  | '"' :: rest, acc => Except.ok (List.asString acc.reverse, rest)
  | '\\' :: esc, acc =>
    match esc with
    | '"' :: r => jstringLoop r ('"' :: acc)
    | '\\' :: r => jstringLoop r ('\\' :: acc)
    | '/' :: r => jstringLoop r ('/' :: acc)
    | 'b' :: r => jstringLoop r ('\x08' :: acc)
    | 'f' :: r => jstringLoop r ('\x0c' :: acc)
    | 'n' :: r => jstringLoop r ('\n' :: acc)
    | 'r' :: r => jstringLoop r ('\r' :: acc)
    | 't' :: r => jstringLoop r ('\t' :: acc)
    | 'u' :: h1 :: h2 :: h3 :: h4 :: r =>
      match hexVal h1, hexVal h2, hexVal h3, hexVal h4 with
      | some a, some b, some c, some d =>
        let n := a * 4096 + b * 256 + c * 16 + d
        if 0xD800 ≤ n ∧ n ≤ 0xDBFF then
          match r with
          | '\\' :: 'u' :: g1 :: g2 :: g3 :: g4 :: r2 =>
            match hexVal g1, hexVal g2, hexVal g3, hexVal g4 with
            | some a2, some b2, some c2, some d2 =>
              let n2 := a2 * 4096 + b2 * 256 + c2 * 16 + d2
              if 0xDC00 ≤ n2 ∧ n2 ≤ 0xDFFF then
                jstringLoop r2
                  (Char.ofNat (0x10000 + (n - 0xD800) * 0x400 + (n2 - 0xDC00)) :: acc)
              else Except.error "json: lone surrogate (not modelled)"
            | _, _, _, _ => Except.error "json: Invalid hex escape"
          | _ => Except.error "json: lone surrogate (not modelled)"
        else if 0xDC00 ≤ n ∧ n ≤ 0xDFFF then
          Except.error "json: lone surrogate (not modelled)"
        else jstringLoop r (Char.ofNat n :: acc)
      | _, _, _, _ => Except.error "json: Invalid hex escape"
    | _ => Except.error "json: Invalid escape"
  | c :: rest, acc =>
    if c.toNat < 0x20 then Except.error "json: Invalid control character"
    else jstringLoop rest (c :: acc)

def digitVal (c : Char) : Nat := c.toNat - 48

def natOfDigits (ds : List Char) : Nat := ds.foldl (fun n c => n * 10 + digitVal c) 0

/-- A JSON number per the grammar `-? (0 | [1-9][0-9]*) frac? exp?`; the
value is kept as an exact decimal. -/
def jnumber (l : List Char) : Except String (Json × List Char) :=
  let sl :=
    match l with
    | '-' :: r => (true, r)
    | _ => (false, l)
  match sl.2 with
  | [] => Except.error "json: Expecting value"
  | c :: _ =>
    if ¬ c.isDigit then Except.error "json: Expecting value"
    else
      let intPart := if c = '0' then [c] else sl.2.takeWhile Char.isDigit
      let l2 := sl.2.drop intPart.length
      let fr :=
        match l2 with
        | '.' :: r =>
          let fd := r.takeWhile Char.isDigit
          if fd = [] then (([] : List Char), l2) else (fd, r.drop fd.length)
        | _ => (([] : List Char), l2)
      let ex :=
        match fr.2 with
        | e :: r =>
          if e == 'e' || e == 'E' then
            let sr :=
              match r with
              | '+' :: r2 => ((1 : Int), r2)
              | '-' :: r2 => ((-1 : Int), r2)
              | _ => ((1 : Int), r)
            let ed := sr.2.takeWhile Char.isDigit
            if ed = [] then ((0 : Int), fr.2)
            else (sr.1 * Int.ofNat (natOfDigits ed), sr.2.drop ed.length)
          else ((0 : Int), fr.2)
        | [] => ((0 : Int), fr.2)
      let mantNat := natOfDigits (intPart ++ fr.1)
      let mant := if sl.1 then -(Int.ofNat mantNat) else Int.ofNat mantNat
      Except.ok (Json.num mant (ex.1 - Int.ofNat fr.1.length), ex.2)

/-- Python dict assignment `d[k] = v`: an existing key keeps its position and
gets the new value, a new key is appended. -/
def jdictSet : List (String × Json) → String → Json → List (String × Json)
  | [], k, v => [(k, v)]
  | (k0, v0) :: rest, k, v =>
    if k0 = k then (k, v) :: rest else (k0, v0) :: jdictSet rest k v

mutual

/-- One JSON value at the head of the input (whitespace already skipped). -/
def jvalue : Nat → List Char → Except String (Json × List Char)
  | 0, _ => Except.error "json: recursion limit"
  | fuel + 1, l =>
    match l with
    | '{' :: rest => jobjectFirst fuel (skipJsonWS rest)
    | '[' :: rest => jarrayFirst fuel (skipJsonWS rest)
    | '"' :: rest =>
      match jstringLoop rest [] with
      | Except.error e => Except.error e
      | Except.ok sr => Except.ok (Json.str sr.1, sr.2)
    | 't' :: 'r' :: 'u' :: 'e' :: rest => Except.ok (Json.bool true, rest)
    | 'f' :: 'a' :: 'l' :: 's' :: 'e' :: rest => Except.ok (Json.bool false, rest)
    | 'n' :: 'u' :: 'l' :: 'l' :: rest => Except.ok (Json.null, rest)
    | 'N' :: 'a' :: 'N' :: rest => Except.ok (Json.nanConst, rest)
    | 'I' :: 'n' :: 'f' :: 'i' :: 'n' :: 'i' :: 't' :: 'y' :: rest =>
      Except.ok (Json.infConst false, rest)
    | '-' :: 'I' :: 'n' :: 'f' :: 'i' :: 'n' :: 'i' :: 't' :: 'y' :: rest =>
      Except.ok (Json.infConst true, rest)
    | _ => jnumber l

def jarrayFirst : Nat → List Char → Except String (Json × List Char)
  | 0, _ => Except.error "json: recursion limit"
  | fuel + 1, l =>
    match l with
    | ']' :: rest => Except.ok (Json.arr [], rest)
    | _ =>
      match jvalue fuel l with
      | Except.error e => Except.error e
      | Except.ok vr => jarrayRest fuel [vr.1] (skipJsonWS vr.2)

def jarrayRest : Nat → List Json → List Char → Except String (Json × List Char)
  | 0, _, _ => Except.error "json: recursion limit"
  | fuel + 1, acc, l =>
    match l with
    | ',' :: rest =>
      match jvalue fuel (skipJsonWS rest) with
      | Except.error e => Except.error e
      | Except.ok vr => jarrayRest fuel (vr.1 :: acc) (skipJsonWS vr.2)
    | ']' :: rest => Except.ok (Json.arr acc.reverse, rest)
    | _ => Except.error "json: Expecting comma delimiter"

def jobjectFirst : Nat → List Char → Except String (Json × List Char)
  | 0, _ => Except.error "json: recursion limit"
  | fuel + 1, l =>
    match l with
    | '}' :: rest => Except.ok (Json.obj [], rest)
    | '"' :: rest => jobjectPair fuel [] rest
    | _ => Except.error "json: Expecting property name"

/-- Key/value pairs of an object, entered just after a key's opening quote;
duplicate keys follow Python dict semantics (last value wins). -/
def jobjectPair : Nat → List (String × Json) → List Char →
    Except String (Json × List Char)
  | 0, _, _ => Except.error "json: recursion limit"
  | fuel + 1, acc, l =>
    match jstringLoop l [] with
    | Except.error e => Except.error e
    | Except.ok kr =>
      match skipJsonWS kr.2 with
      | ':' :: r2 =>
        match jvalue fuel (skipJsonWS r2) with
        | Except.error e => Except.error e
        | Except.ok vr =>
          let acc2 := jdictSet acc kr.1 vr.1
          match skipJsonWS vr.2 with
          | ',' :: r4 =>
            match skipJsonWS r4 with
            | '"' :: r5 => jobjectPair fuel acc2 r5
            | _ => Except.error "json: Expecting property name"
          | '}' :: r4 => Except.ok (Json.obj acc2, r4)
          | _ => Except.error "json: Expecting comma delimiter"
      | _ => Except.error "json: Expecting colon delimiter"

end

/-- `json.loads`: one value, optionally surrounded by whitespace; anything
after it is "Extra data". -/
def jsonLoads (s : String) : Except String Json :=
  let l := skipJsonWS s.data
  match jvalue (l.length + 1) l with
  | Except.error e => Except.error e
  | Except.ok vr =>
    if skipJsonWS vr.2 = [] then Except.ok vr.1 else Except.error "json: Extra data"

/-! ### `parse_assigned_json_array`

The script applies `re.compile(r"^\s*NAME\s*=\s*(\[\s*.*\s*\])\s*;.*$",
re.DOTALL).match(js_text.strip())`.  With DOTALL the group's greedy `.*`
captures up to the LAST `]` that is followed by optional whitespace and a
`;`; the anchored pieces before the group are literal-name and whitespace
consumption.  On no match a `ValueError` carries the first 200 characters of
the stripped text with newlines written as backslash-n; on a match
`json.loads` runs on the captured group. -/

/-- Python `\s` and `str.strip` whitespace on the characters reachable here
(ASCII and Latin-1; wider Unicode space classes are not modelled — none can
occur in the inputs of this development). -/
def pyWS (c : Char) : Bool :=
  c == ' ' || c == '\t' || c == '\n' || c == '\r' || c == '\x0b' || c == '\x0c' ||
  c == '\x1c' || c == '\x1d' || c == '\x1e' || c == '\x1f' || c == '\x85' ||
  c == '\xa0'

def pyStrip (l : List Char) : List Char :=
  ((l.dropWhile pyWS).reverse.dropWhile pyWS).reverse

/-- The right-trim half of `str.strip`. -/
def rtrimWS (l : List Char) : List Char := (l.reverse.dropWhile pyWS).reverse

/-- Consume an exact literal at the head. -/
def consumeLit : List Char → List Char → Option (List Char)
  | [], l => some l
  | _ :: _, [] => none
  | p :: ps, c :: cs => if p == c then consumeLit ps cs else none

/-- Does the text begin, after optional whitespace, with a semicolon?  The
condition a candidate closing bracket's tail must satisfy. -/
def semiAfterWS (l : List Char) : Bool :=
  match l.dropWhile pyWS with
  | ';' :: _ => true
  | _ => false

/-- The greedy search for the group's closing bracket: the LAST `]` whose
tail passes `semiAfterWS`.  Returns the prefix up to and including that `]`,
and the tail after it. -/
def findGreedyClose : List Char → Option (List Char × List Char)
  | [] => none
  | c :: cs =>
    match findGreedyClose cs with
    | some r => some (c :: r.1, r.2)
    | none => if c == ']' && semiAfterWS cs then some ([c], cs) else none

/-- The regex match of `parse_assigned_json_array` on the (already stripped)
text: `some group` is the captured JSON-array text. -/
def matchAssignedArray (t name : List Char) : Option (List Char) :=
  match consumeLit name (t.dropWhile pyWS) with
  | none => none
  | some t2 =>
    match t2.dropWhile pyWS with
    | '=' :: t4 =>
      match t4.dropWhile pyWS with
      | '[' :: t6 =>
        match findGreedyClose t6 with
        | some r => some ('[' :: r.1)
        | none => none
      | _ => none
    | _ => none

/-- `snippet = js_text.strip()[:200].replace("\n", "\\n")`. -/
def escapeNewlines (l : List Char) : List Char :=
  l.flatMap (fun c => if c == '\n' then ['\\', 'n'] else [c])

def formatErrorMsg (js_text var_name : String) : String :=
  "Unexpected " ++ var_name ++ " format. Head: " ++
    List.asString (escapeNewlines ((pyStrip js_text.data).take 200))

/-- `parse_assigned_json_array(js_text, var_name)`.  The captured group
always starts with `[`, so a successful `json.loads` is an array and the
non-array branch is unreachable. -/
def parse_assigned_json_array (js_text var_name : String) :
    Except String (List Json) :=
  match matchAssignedArray (pyStrip js_text.data) var_name.data with
  | none => Except.error (formatErrorMsg js_text var_name)
  | some group =>
    match jsonLoads (List.asString group) with
    | Except.error e => Except.error e
    | Except.ok (Json.arr xs) => Except.ok xs
    | Except.ok _ => Except.error "json value is not an array"

/-! ### `build_package_to_module`, `package_path` -/

/-- Python `dict.get` on a parsed JSON object (parsed objects have unique
keys, built by `jdictSet`). -/
def jget (entries : List (String × Json)) (k : String) : Option Json :=
  match entries.find? (fun kv => kv.1 == k) with
  | some kv => some kv.2
  | none => none

/-- Python dict assignment for the package-to-module mapping. -/
def dictSet : List (String × String) → String → String → List (String × String)
  | [], k, v => [(k, v)]
  | (k0, v0) :: rest, k, v =>
    if k0 = k then (k, v) :: rest else (k0, v0) :: dictSet rest k v

def dictGet (d : List (String × String)) (k : String) : Option String :=
  match d.find? (fun kv => kv.1 == k) with
  | some kv => some kv.2
  | none => none

/-- The loop of `build_package_to_module`: entries whose `m` or `l` is
missing, non-string or empty are skipped; a non-dict entry raises (Python
`AttributeError` on `.get`). -/
def build_p2m_loop (acc : List (String × String)) :
    List Json → Except String (List (String × String))
  | [] => Except.ok acc
  | e :: es =>
    match e with
    | Json.obj kvs =>
      match jget kvs "m", jget kvs "l" with
      | some (Json.str moduleName), some (Json.str packageName) =>
        if moduleName ≠ "" ∧ packageName ≠ "" then
          build_p2m_loop (dictSet acc packageName moduleName) es
        else build_p2m_loop acc es
      | _, _ => build_p2m_loop acc es
    | _ => Except.error "AttributeError: entry has no attribute get"

def build_package_to_module (package_index : List Json) :
    Except String (List (String × String)) :=
  build_p2m_loop [] package_index

/-- `package_path`: dots to slashes (`str.replace` with one-character
pattern and replacement is a character map). -/
def package_path (package_name : String) : String :=
  List.asString (package_name.data.map (fun c => if c == '.' then '/' else c))

/-! ### `parse_index_files`

The regex is written `href="(index-[0-9]+\\.html)"` inside a raw Python
string, so the pattern the `re` module receives contains `\\` (a literal
backslash) followed by `.` (any character except newline): a match needs a
literal backslash character between the digits and `html`.  `findall`
scans left to right, non-overlapping; the comprehension then keeps the
matches that start with `index-` and end with `.html`. -/

/-- An anchored match of the pattern at the head of the input: `some (group,
rest)` where `rest` follows the closing quote. -/
def matchHrefAt (l : List Char) : Option (List Char × List Char) :=
  match l with
  | 'h' :: 'r' :: 'e' :: 'f' :: '=' :: '"' :: 'i' :: 'n' :: 'd' :: 'e' :: 'x' ::
      '-' :: r =>
    let ds := r.takeWhile Char.isDigit
    if ds = [] then none
    else
      match r.dropWhile Char.isDigit with
      | '\\' :: c :: 'h' :: 't' :: 'm' :: 'l' :: '"' :: rest =>
        if c == '\n' then none
        else
          some ('i' :: 'n' :: 'd' :: 'e' :: 'x' :: '-' ::
            (ds ++ '\\' :: c :: ['h', 't', 'm', 'l']), rest)
      | _ => none
  | _ => none

/-- `re.findall`: try a match at each position, continue after a match's
end, else advance one character (fuel is the input length, enough since
every step consumes at least one character). -/
def findallHref : Nat → List Char → List String
  | 0, _ => []
  | _, [] => []
  | fuel + 1, l =>
    match matchHrefAt l with
    | some gr => List.asString gr.1 :: findallHref fuel gr.2
    | none =>
      match l with
      | [] => []
      | _ :: rest => findallHref fuel rest

def pyStartsWith (s pre : String) : Bool := pre.data.isPrefixOf s.data

def pyEndsWith (s suf : String) : Bool := suf.data.isSuffixOf s.data

def parse_index_files (index_1_html : String) : List String :=
  let ms := pyDedup (findallHref index_1_html.data.length index_1_html.data)
  ms.filter (fun m => pyStartsWith m "index-" && pyEndsWith m ".html")

/-! ### `generate_seed_urls` (pure core: the three fetched texts are
arguments) -/

def root_pages : List String :=
  ["index.html", "overview-tree.html", "preview-list.html", "new-list.html",
   "deprecated-list.html", "search.html", "help-doc.html",
   "allpackages-index.html", "allclasses-index.html", "allclasses.html",
   "constant-values.html", "serialized-form.html", "external-specs.html",
   "restricted-list.html", "search-tags.html", "system-properties.html"]

/-- `base_url if base_url.endswith("/") else base_url + "/"`. -/
def normalizeBase (base_url : String) : String :=
  if base_url.data.getLast? = some '/' then base_url else base_url ++ "/"

/-- Join each page against the base; the first raised error aborts, as in
Python. -/
def mapUrljoin (base : String) : List String → Except String (List String)
  | [] => Except.ok []
  | p :: ps =>
    match urljoin base p with
    | Except.error e => Except.error e
    | Except.ok u =>
      match mapUrljoin base ps with
      | Except.error e => Except.error e
      | Except.ok us => Except.ok (u :: us)

/-- The type-pages loop: per record the two URLs (type page, class-use page)
when the record is valid and its package is mapped; a valid record with an
unmapped package only increments the missing-modules counter; an invalid
record (missing/non-string/empty `p` or `l`) contributes nothing; a
non-dict record raises. -/
def typeUrls (base : String) (mapping : List (String × String)) :
    List Json → Except String (List String × Nat)
  | [] => Except.ok ([], 0)
  | e :: es =>
    match e with
    | Json.obj kvs =>
      match jget kvs "p", jget kvs "l" with
      | some (Json.str packageName), some (Json.str type_name) =>
        if packageName ≠ "" ∧ type_name ≠ "" then
          match dictGet mapping packageName with
          | none =>
            match typeUrls base mapping es with
            | Except.error e2 => Except.error e2
            | Except.ok r => Except.ok (r.1, r.2 + 1)
          | some moduleName =>
            let type_file := type_name ++ ".html"
            let type_dir := moduleName ++ "/" ++ package_path packageName
            match urljoin base (type_dir ++ "/" ++ type_file) with
            | Except.error e2 => Except.error e2
            | Except.ok u1 =>
              match urljoin base (type_dir ++ "/class-use/" ++ type_file) with
              | Except.error e2 => Except.error e2
              | Except.ok u2 =>
                match typeUrls base mapping es with
                | Except.error e2 => Except.error e2
                | Except.ok r => Except.ok (u1 :: u2 :: r.1, r.2)
        else typeUrls base mapping es
      | _, _ => typeUrls base mapping es
    | _ => Except.error "AttributeError: entry has no attribute get"

/-- What `generate_seed_urls` holds just before sorting and encoding: the
url set (as the list of its insertions), the missing-modules counter, and
the package-to-module mapping. -/
structure SeedOutcome where
  urls : List String
  missing_modules : Nat
  package_to_module : List (String × String)
deriving Repr

def generate_seed_urls_core (base_url package_js type_js index_1_html : String) :
    Except String SeedOutcome :=
  let normalized_base := normalizeBase base_url
  match parse_assigned_json_array package_js "packageSearchIndex" with
  | Except.error e => Except.error e
  | Except.ok package_index =>
    match parse_assigned_json_array type_js "typeSearchIndex" with
    | Except.error e => Except.error e
    | Except.ok type_index =>
      match build_package_to_module package_index with
      | Except.error e => Except.error e
      | Except.ok package_to_module =>
        let modules := pySortedSet (package_to_module.map (fun kv => kv.2))
        match mapUrljoin normalized_base root_pages with
        | Except.error e => Except.error e
        | Except.ok rootUrls =>
          let index_files := pySetAdd (parse_index_files index_1_html) "index-1.html"
          match mapUrljoin normalized_base
              ((pySortedSet index_files).map (fun idx => "index-files/" ++ idx)) with
          | Except.error e => Except.error e
          | Except.ok idxUrls =>
            match mapUrljoin normalized_base
                (modules.map (fun m => m ++ "/module-summary.html")) with
            | Except.error e => Except.error e
            | Except.ok moduleUrls =>
              match mapUrljoin normalized_base
                  (package_to_module.flatMap (fun kv =>
                    let package_dir := kv.2 ++ "/" ++ package_path kv.1
                    [package_dir ++ "/package-summary.html",
                     package_dir ++ "/package-tree.html",
                     package_dir ++ "/package-use.html"])) with
              | Except.error e => Except.error e
              | Except.ok pkgUrls =>
                match typeUrls normalized_base package_to_module type_index with
                | Except.error e => Except.error e
                | Except.ok tu =>
                  Except.ok ⟨rootUrls ++ idxUrls ++ moduleUrls ++ pkgUrls ++ tu.1,
                    tu.2, package_to_module⟩

/-- The comprehension `[encode_url(u) for u in sorted(urls)]`: the first
raised error aborts. -/
def mapEncode : List String → Except String (List String)
  | [] => Except.ok []
  | u :: us =>
    match encode_url u with
    | Except.error e => Except.error e
    | Except.ok v =>
      match mapEncode us with
      | Except.error e => Except.error e
      | Except.ok vs => Except.ok (v :: vs)

/-- The emitted lines: deduplicate, sort, then percent-encode each URL. -/
def generate_seed_urls (base_url package_js type_js index_1_html : String) :
    Except String (List String) :=
  match generate_seed_urls_core base_url package_js type_js index_1_html with
  | Except.error e => Except.error e
  | Except.ok c => mapEncode (pySortedSet c.urls)

/-! ### Helper predicates for the claims -/

def okContains (r : Except String (List String)) (s : String) : Bool :=
  match r with
  | Except.ok l => l.contains s
  | Except.error _ => false

/-- A type-index record with string, nonempty `p` and `l` fields. -/
def validTypeRecord (kvs : List (String × Json)) : Bool :=
  match jget kvs "p", jget kvs "l" with
  | some (Json.str packageName), some (Json.str type_name) =>
    packageName != "" && type_name != ""
  | _, _ => false

/-- A package-index record with string, nonempty `m` and `l` fields: the
records `build_package_to_module` keeps. -/
def validPkgRecord (kvs : List (String × Json)) : Bool :=
  match jget kvs "m", jget kvs "l" with
  | some (Json.str moduleName), some (Json.str packageName) =>
    moduleName != "" && packageName != ""
  | _, _ => false

/-- A valid record whose declared package is absent from the mapping: the
records the missing-modules counter counts. -/
def missingModuleRecord (mapping : List (String × String)) (e : Json) : Bool :=
  match e with
  | Json.obj kvs =>
    validTypeRecord kvs &&
      (match jget kvs "p" with
       | some (Json.str packageName) => (dictGet mapping packageName).isNone
       | _ => false)
  | _ => false

/-- The module of the last valid package-index record declaring package `p`:
the reference for "last value seen wins". -/
def lastModuleFor (package_index : List Json) (p : String) : Option String :=
  package_index.foldl (fun acc e =>
    match e with
    | Json.obj kvs =>
      match jget kvs "m", jget kvs "l" with
      | some (Json.str mo), some (Json.str pa) =>
        if mo ≠ "" ∧ pa ≠ "" ∧ pa = p then some mo else acc
      | _, _ => acc
    | _ => acc) none

/-- The non-strict order insertion sort maintains. -/
def SortedLe (l : List String) : Prop := l.Pairwise (fun a b => strLt b a = false)

/-- The fold step of `lastModuleFor`. -/
def lastModuleStep (q : String) (acc : Option String) (e : Json) : Option String :=
  match e with
  | Json.obj kvs =>
    match jget kvs "m", jget kvs "l" with
    | some (Json.str mo), some (Json.str pa) =>
      if mo ≠ "" ∧ pa ≠ "" ∧ pa = q then some mo else acc
    | _, _ => acc
  | _ => acc

/-- The character set of claim C10: unreserved characters (ASCII letters,
digits, dash, dot, underscore, tilde — exactly `_ALWAYS_SAFE`) or slash. -/
def unreservedOrSlash (c : Char) : Bool := alwaysSafeChars.contains c || c == '/'

/-- The upper-case hexadecimal digits percent-encoding can emit. -/
def hexDigitsUpper : List Char := "0123456789ABCDEF".data

/-- A superset of the characters the path quoting (safe characters slash,
dash, dot, underscore, tilde) can output: kept safe characters, the percent
sign, and upper-case hex digits. -/
def allowedPathOut : List Char :=
  alwaysSafeChars ++ pathSafeChars ++ '%' :: hexDigitsUpper

/-- A superset of the characters the query quoting (`quote_plus` with safe
`=&`) can output. -/
def allowedQueryOut : List Char :=
  alwaysSafeChars ++ querySafeChars ++ '+' :: ' ' :: '%' :: hexDigitsUpper

/-! ### Concrete fixtures used by the claims -/

/-- The package-index text of spec section 8's example. -/
def examplePackageJs : String :=
  "packageSearchIndex = [\x7b\"m\":\"java.base\",\"l\":\"java.lang\"\x7d];updateSearchResults();"

def exampleTypeJsEmpty : String := "typeSearchIndex = [];"

def exampleBase : String := "https://example.com/docs/api/"

def examplePkgEntry : Json :=
  Json.obj [("m", Json.str "java.base"), ("l", Json.str "java.lang")]

/-- A package index declaring package `p` in module `m`. -/
def cexPackageJs : String := "packageSearchIndex = [\x7b\"m\":\"m\",\"l\":\"p\"\x7d];"

/-- A type index with two types of package `p` whose names differ in a
character (`-` versus `:`) that percent-encoding reorders. -/
def cexTypeJs : String :=
  "typeSearchIndex = [\x7b\"p\":\"p\",\"l\":\"x-a\"\x7d,\x7b\"p\":\"p\",\"l\":\"x:a\"\x7d];"

/-- The url set of the example run, in insertion order (root pages, index
files, module pages, package pages, type pages). -/
def exampleCoreUrls : List String :=
  ["https://example.com/docs/api/index.html",
   "https://example.com/docs/api/overview-tree.html",
   "https://example.com/docs/api/preview-list.html",
   "https://example.com/docs/api/new-list.html",
   "https://example.com/docs/api/deprecated-list.html",
   "https://example.com/docs/api/search.html",
   "https://example.com/docs/api/help-doc.html",
   "https://example.com/docs/api/allpackages-index.html",
   "https://example.com/docs/api/allclasses-index.html",
   "https://example.com/docs/api/allclasses.html",
   "https://example.com/docs/api/constant-values.html",
   "https://example.com/docs/api/serialized-form.html",
   "https://example.com/docs/api/external-specs.html",
   "https://example.com/docs/api/restricted-list.html",
   "https://example.com/docs/api/search-tags.html",
   "https://example.com/docs/api/system-properties.html",
   "https://example.com/docs/api/index-files/index-1.html",
   "https://example.com/docs/api/java.base/module-summary.html",
   "https://example.com/docs/api/java.base/java/lang/package-summary.html",
   "https://example.com/docs/api/java.base/java/lang/package-tree.html",
   "https://example.com/docs/api/java.base/java/lang/package-use.html"]

def exampleOutcome : SeedOutcome :=
  ⟨exampleCoreUrls, 0, [("java.lang", "java.base")]⟩

/-- The emitted lines of the example run (sorted; encoding is the identity
on these URLs). -/
def exampleSortedUrls : List String :=
  ["https://example.com/docs/api/allclasses-index.html",
   "https://example.com/docs/api/allclasses.html",
   "https://example.com/docs/api/allpackages-index.html",
   "https://example.com/docs/api/constant-values.html",
   "https://example.com/docs/api/deprecated-list.html",
   "https://example.com/docs/api/external-specs.html",
   "https://example.com/docs/api/help-doc.html",
   "https://example.com/docs/api/index-files/index-1.html",
   "https://example.com/docs/api/index.html",
   "https://example.com/docs/api/java.base/java/lang/package-summary.html",
   "https://example.com/docs/api/java.base/java/lang/package-tree.html",
   "https://example.com/docs/api/java.base/java/lang/package-use.html",
   "https://example.com/docs/api/java.base/module-summary.html",
   "https://example.com/docs/api/new-list.html",
   "https://example.com/docs/api/overview-tree.html",
   "https://example.com/docs/api/preview-list.html",
   "https://example.com/docs/api/restricted-list.html",
   "https://example.com/docs/api/search-tags.html",
   "https://example.com/docs/api/search.html",
   "https://example.com/docs/api/serialized-form.html",
   "https://example.com/docs/api/system-properties.html"]

def cexPkgEntry : Json := Json.obj [("m", Json.str "m"), ("l", Json.str "p")]

def cexTypeEntries : List Json :=
  [Json.obj [("p", Json.str "p"), ("l", Json.str "x-a")],
   Json.obj [("p", Json.str "p"), ("l", Json.str "x:a")]]

/-- The url set of the counterexample run, in insertion order. -/
def cexCoreUrls : List String :=
  ["https://example.com/docs/api/index.html",
   "https://example.com/docs/api/overview-tree.html",
   "https://example.com/docs/api/preview-list.html",
   "https://example.com/docs/api/new-list.html",
   "https://example.com/docs/api/deprecated-list.html",
   "https://example.com/docs/api/search.html",
   "https://example.com/docs/api/help-doc.html",
   "https://example.com/docs/api/allpackages-index.html",
   "https://example.com/docs/api/allclasses-index.html",
   "https://example.com/docs/api/allclasses.html",
   "https://example.com/docs/api/constant-values.html",
   "https://example.com/docs/api/serialized-form.html",
   "https://example.com/docs/api/external-specs.html",
   "https://example.com/docs/api/restricted-list.html",
   "https://example.com/docs/api/search-tags.html",
   "https://example.com/docs/api/system-properties.html",
   "https://example.com/docs/api/index-files/index-1.html",
   "https://example.com/docs/api/m/module-summary.html",
   "https://example.com/docs/api/m/p/package-summary.html",
   "https://example.com/docs/api/m/p/package-tree.html",
   "https://example.com/docs/api/m/p/package-use.html",
   "https://example.com/docs/api/m/p/x-a.html",
   "https://example.com/docs/api/m/p/class-use/x-a.html",
   "https://example.com/docs/api/m/p/x:a.html",
   "https://example.com/docs/api/m/p/class-use/x:a.html"]

def cexOutcome : SeedOutcome := ⟨cexCoreUrls, 0, [("p", "m")]⟩

/-! ## Lemmas: Python string order, `sorted`, `set` -/

theorem charListLt_irrefl : ∀ l : List Char, charListLt l l = false
  | [] => rfl
  | c :: cs => by simp [charListLt, charListLt_irrefl cs]

theorem charListLt_trans :
    ∀ a b c : List Char, charListLt a b = true → charListLt b c = true →
      charListLt a c = true
  | [], _ :: _, _ :: _, _, _ => rfl
  | [], [], _, hab, _ => by simp [charListLt] at hab
  | [], _ :: _, [], _, hbc => by simp [charListLt] at hbc
  | _ :: _, [], _, hab, _ => by simp [charListLt] at hab
  | _ :: _, _ :: _, [], _, hbc => by simp [charListLt] at hbc
  | x :: xs, y :: ys, z :: zs, hab, hbc => by
    simp only [charListLt] at hab hbc ⊢
    split_ifs at hab hbc ⊢ with h1 h2 h3 h4 h5 h6 <;>
      first
      | rfl
      | omega
      | (exact charListLt_trans xs ys zs hab hbc)

theorem charListLt_asymm (a b : List Char) (h : charListLt a b = true) :
    charListLt b a = false := by
  by_contra hc
  have hba : charListLt b a = true := by
    cases hx : charListLt b a with
    | true => rfl
    | false => exact absurd hx hc
  have := charListLt_trans a b a h hba
  rw [charListLt_irrefl] at this
  exact Bool.false_ne_true this

theorem char_eq_of_toNat_eq {x y : Char} (h : x.toNat = y.toNat) : x = y :=
  Char.eq_of_val_eq (UInt32.ext h)

theorem charListLt_connex :
    ∀ a b : List Char, charListLt a b = false → charListLt b a = false → a = b
  | [], [], _, _ => rfl
  | [], _ :: _, hab, _ => by simp [charListLt] at hab
  | _ :: _, [], _, hba => by simp [charListLt] at hba
  | x :: xs, y :: ys, hab, hba => by
    simp only [charListLt] at hab hba
    split_ifs at hab hba with h1 h2 h3 h4 <;> first
    | omega
    | (have hx : x = y := char_eq_of_toNat_eq (by omega)
       subst hx
       rw [charListLt_connex xs ys hab hba])

theorem strLt_asymm (a b : String) (h : strLt a b = true) : strLt b a = false :=
  charListLt_asymm a.data b.data h

theorem strLt_connex (a b : String) (hab : strLt a b = false)
    (hba : strLt b a = false) : a = b :=
  String.ext (charListLt_connex a.data b.data hab hba)

theorem strLt_trans (a b c : String) (h1 : strLt a b = true)
    (h2 : strLt b c = true) : strLt a c = true :=
  charListLt_trans a.data b.data c.data h1 h2

theorem mem_insertSorted (x a : String) :
    ∀ l : List String, a ∈ insertSorted x l ↔ a = x ∨ a ∈ l := by
  intro l
  induction l with
  | nil =>
    rw [insertSorted]
    simp
  | cons y ys ih =>
    by_cases h : strLt x y = true
    · rw [insertSorted, if_pos h]
      simp only [List.mem_cons]
    · rw [insertSorted, if_neg h]
      simp only [List.mem_cons, ih]
      tauto

theorem insertSorted_perm (x : String) :
    ∀ l : List String, (insertSorted x l).Perm (x :: l) := by
  intro l
  induction l with
  | nil =>
    rw [insertSorted]
  | cons y ys ih =>
    by_cases h : strLt x y = true
    · rw [insertSorted, if_pos h]
    · rw [insertSorted, if_neg h]
      exact (ih.cons y).trans (List.Perm.swap x y ys)

theorem insertionSort_perm : ∀ l : List String, (insertionSort l).Perm l := by
  intro l
  induction l with
  | nil => simp [insertionSort]
  | cons x xs ih =>
    exact (insertSorted_perm x (insertionSort xs)).trans (ih.cons x)

theorem insertSorted_sortedLe (x : String) :
    ∀ l : List String, SortedLe l → SortedLe (insertSorted x l) := by
  intro l
  induction l with
  | nil => intro _; simp [insertSorted, SortedLe]
  | cons y ys ih =>
    intro hs
    rw [SortedLe, List.pairwise_cons] at hs
    by_cases h : strLt x y = true
    · rw [insertSorted, if_pos h, SortedLe, List.pairwise_cons]
      refine ⟨?_, List.pairwise_cons.mpr hs⟩
      intro b hb
      rcases List.mem_cons.mp hb with hby | hbys
      · rw [hby]; exact strLt_asymm x y h
      · cases hxb : strLt b x with
        | false => rfl
        | true =>
          exfalso
          have hby2 : strLt b y = true := strLt_trans b x y hxb h
          have hby3 : strLt b y = false := hs.1 b hbys
          rw [hby3] at hby2
          exact Bool.false_ne_true hby2
    · have hxy : strLt x y = false := by
        cases hv : strLt x y with
        | false => rfl
        | true => exact absurd hv h
      rw [insertSorted, if_neg h, SortedLe, List.pairwise_cons]
      constructor
      · intro b hb
        rcases (mem_insertSorted x b ys).mp hb with hbx | hbys
        · rw [hbx]; exact hxy
        · exact hs.1 b hbys
      · exact ih hs.2

theorem insertionSort_sortedLe : ∀ l : List String, SortedLe (insertionSort l) := by
  intro l
  induction l with
  | nil => simp [insertionSort, SortedLe]
  | cons x xs ih => exact insertSorted_sortedLe x (insertionSort xs) ih

theorem mem_pyDedup (a : String) : ∀ l : List String, a ∈ pyDedup l ↔ a ∈ l := by
  intro l
  induction l with
  | nil => simp [pyDedup]
  | cons x xs ih =>
    by_cases h : xs.contains x = true
    · rw [pyDedup, if_pos h]
      have hx : x ∈ xs := by simpa using h
      rw [ih]
      simp only [List.mem_cons]
      constructor
      · exact Or.inr
      · rintro (hax | haxs)
        · subst hax; exact hx
        · exact haxs
    · rw [pyDedup, if_neg h]
      simp [ih]

theorem pyDedup_nodup : ∀ l : List String, (pyDedup l).Nodup := by
  intro l
  induction l with
  | nil => simp [pyDedup]
  | cons x xs ih =>
    by_cases h : xs.contains x = true
    · rw [pyDedup, if_pos h]; exact ih
    · rw [pyDedup, if_neg h]
      rw [List.nodup_cons]
      refine ⟨?_, ih⟩
      rw [mem_pyDedup]
      intro hx
      exact h (by simpa using hx)

theorem pySortedSet_nodup (l : List String) : (pySortedSet l).Nodup :=
  ((insertionSort_perm (pyDedup l)).nodup_iff).mpr (pyDedup_nodup l)

theorem pySortedSet_sortedLe (l : List String) : SortedLe (pySortedSet l) :=
  insertionSort_sortedLe (pyDedup l)

theorem mem_pySortedSet (a : String) (l : List String) :
    a ∈ pySortedSet l ↔ a ∈ l := by
  rw [pySortedSet, (insertionSort_perm (pyDedup l)).mem_iff, mem_pyDedup]

theorem isSortedStrict_of_nodup_sortedLe :
    ∀ l : List String, l.Nodup → SortedLe l → isSortedStrict l = true := by
  intro l
  induction l with
  | nil => intro _ _; rfl
  | cons a t ih =>
    intro hn hs
    cases t with
    | nil => rfl
    | cons b r =>
      rw [SortedLe, List.pairwise_cons] at hs
      rw [List.nodup_cons] at hn
      have hba : strLt b a = false := hs.1 b (List.mem_cons_self b r)
      have hne : a ≠ b := by
        intro h; exact hn.1 (h ▸ List.mem_cons_self b r)
      have hab : strLt a b = true := by
        cases hx : strLt a b with
        | true => rfl
        | false => exact absurd (strLt_connex a b hx hba) hne
      rw [isSortedStrict, hab, Bool.true_and]
      exact ih hn.2 hs.2

theorem isSortedStrict_pySortedSet (l : List String) :
    isSortedStrict (pySortedSet l) = true :=
  isSortedStrict_of_nodup_sortedLe (pySortedSet l) (pySortedSet_nodup l)
    (pySortedSet_sortedLe l)

theorem mem_pySetAdd (a x : String) (l : List String) :
    a ∈ pySetAdd l x ↔ a ∈ l ∨ a = x := by
  rw [pySetAdd]
  by_cases h : l.contains x = true
  · rw [if_pos h]
    constructor
    · exact Or.inl
    · rintro (ha | ha)
      · exact ha
      · subst ha; simpa using h
  · rw [if_neg h]
    simp

/-! ## Lemmas: the error-propagating maps -/

theorem mapUrljoin_ok_mem (base : String) :
    ∀ (l ys : List String), mapUrljoin base l = Except.ok ys →
      ∀ x ∈ l, ∃ u, urljoin base x = Except.ok u ∧ u ∈ ys := by
  intro l
  induction l with
  | nil => intro ys _ x hx; cases hx
  | cons p ps ih =>
    intro ys h x hx
    rw [mapUrljoin] at h
    cases hu : urljoin base p with
    | error e => rw [hu] at h; cases h
    | ok u =>
      rw [hu] at h
      cases hus : mapUrljoin base ps with
      | error e => rw [hus] at h; cases h
      | ok us =>
        rw [hus] at h
        cases h
        rcases List.mem_cons.mp hx with hxp | hxps
        · exact ⟨u, hxp ▸ hu, List.mem_cons_self u us⟩
        · rcases ih us hus x hxps with ⟨v, hv, hvm⟩
          exact ⟨v, hv, List.mem_cons_of_mem u hvm⟩

theorem mapEncode_ok_mem :
    ∀ (l ys : List String), mapEncode l = Except.ok ys →
      ∀ x ∈ l, ∃ e, encode_url x = Except.ok e ∧ e ∈ ys := by
  intro l
  induction l with
  | nil => intro ys _ x hx; cases hx
  | cons p ps ih =>
    intro ys h x hx
    rw [mapEncode] at h
    cases hu : encode_url p with
    | error e => rw [hu] at h; cases h
    | ok u =>
      rw [hu] at h
      cases hus : mapEncode ps with
      | error e => rw [hus] at h; cases h
      | ok us =>
        rw [hus] at h
        cases h
        rcases List.mem_cons.mp hx with hxp | hxps
        · exact ⟨u, hxp ▸ hu, List.mem_cons_self u us⟩
        · rcases ih us hus x hxps with ⟨v, hv, hvm⟩
          exact ⟨v, hv, List.mem_cons_of_mem u hvm⟩

/-! ## Lemmas: the type-pages loop -/

theorem typeUrls_cons_invalid (base : String) (mapping : List (String × String))
    (kvs : List (String × Json)) (es : List Json)
    (h : validTypeRecord kvs = false) :
    typeUrls base mapping (Json.obj kvs :: es) = typeUrls base mapping es := by
  rw [typeUrls]
  split
  case _ packageName type_name hp hl =>
    unfold validTypeRecord at h
    rw [hp, hl] at h
    simp only [bne_iff_ne, ne_eq, Bool.and_eq_false_iff,
      decide_eq_false_iff_not, not_not] at h
    rw [if_neg]
    intro hcon
    rcases hcon with ⟨h1, h2⟩
    rcases h with hf | hf <;> simp_all
  case _ => rfl

theorem typeUrls_cons_missing (base : String) (mapping : List (String × String))
    (kvs : List (String × Json)) (es : List Json)
    (packageName type_name : String)
    (hp : jget kvs "p" = some (Json.str packageName))
    (hl : jget kvs "l" = some (Json.str type_name))
    (hpne : packageName ≠ "") (htne : type_name ≠ "")
    (hmiss : dictGet mapping packageName = none) :
    typeUrls base mapping (Json.obj kvs :: es)
      = (typeUrls base mapping es).map (fun r => (r.1, r.2 + 1)) := by
  rw [typeUrls]
  simp only [hp, hl]
  rw [if_pos ⟨hpne, htne⟩, hmiss]
  cases typeUrls base mapping es <;> rfl

theorem typeUrls_cons_found (base : String) (mapping : List (String × String))
    (kvs : List (String × Json)) (es : List Json)
    (packageName type_name moduleName u1 u2 : String)
    (hp : jget kvs "p" = some (Json.str packageName))
    (hl : jget kvs "l" = some (Json.str type_name))
    (hpne : packageName ≠ "") (htne : type_name ≠ "")
    (hm : dictGet mapping packageName = some moduleName)
    (hu1 : urljoin base (moduleName ++ "/" ++ package_path packageName ++ "/" ++
      (type_name ++ ".html")) = Except.ok u1)
    (hu2 : urljoin base (moduleName ++ "/" ++ package_path packageName ++
      "/class-use/" ++ (type_name ++ ".html")) = Except.ok u2) :
    typeUrls base mapping (Json.obj kvs :: es)
      = (typeUrls base mapping es).map (fun r => (u1 :: u2 :: r.1, r.2)) := by
  rw [typeUrls]
  simp only [hp, hl]
  rw [if_pos ⟨hpne, htne⟩]
  simp only [hm]
  simp only [hu1, hu2]
  cases typeUrls base mapping es <;> rfl

theorem missingModuleRecord_obj (mapping : List (String × String))
    (kvs : List (String × Json)) (packageName type_name : String)
    (hp : jget kvs "p" = some (Json.str packageName))
    (hl : jget kvs "l" = some (Json.str type_name))
    (hpne : packageName ≠ "") (htne : type_name ≠ "") :
    missingModuleRecord mapping (Json.obj kvs)
      = (dictGet mapping packageName).isNone := by
  simp only [missingModuleRecord, validTypeRecord, hp, hl]
  simp [hpne, htne]

theorem missingModuleRecord_obj_invalid (mapping : List (String × String))
    (kvs : List (String × Json)) (h : validTypeRecord kvs = false) :
    missingModuleRecord mapping (Json.obj kvs) = false := by
  simp only [missingModuleRecord, h, Bool.false_and]

/-! ## Lemmas: inversion of the pipeline -/

theorem validTypeRecord_inv (kvs : List (String × Json))
    (h : validTypeRecord kvs = true) :
    ∃ pn tn, jget kvs "p" = some (Json.str pn) ∧
      jget kvs "l" = some (Json.str tn) ∧ pn ≠ "" ∧ tn ≠ "" := by
  unfold validTypeRecord at h
  cases hp : jget kvs "p" with
  | none => rw [hp] at h; cases h
  | some vp =>
    rw [hp] at h
    cases hl : jget kvs "l" with
    | none =>
      rw [hl] at h
      cases vp <;> cases h
    | some vl =>
      rw [hl] at h
      cases vp with
      | str pn =>
        cases vl with
        | str tn =>
          refine ⟨pn, tn, rfl, rfl, ?_, ?_⟩ <;>
            (simp only [bne_iff_ne, ne_eq, Bool.and_eq_true,
              decide_eq_true_eq] at h; tauto)
        | null => cases h
        | bool b => cases h
        | num m e2 => cases h
        | arr xs => cases h
        | obj o => cases h
        | nanConst => cases h
        | infConst ng => cases h
      | null => cases h
      | bool b => cases h
      | num m e2 => cases h
      | arr xs => cases h
      | obj o => cases h
      | nanConst => cases h
      | infConst ng => cases h

theorem typeUrls_count_invariance (base : String)
    (mapping : List (String × String)) :
    ∀ (entries : List Json) (out : List String × Nat),
      typeUrls base mapping entries = Except.ok out →
      out.2 = entries.countP (missingModuleRecord mapping) ∧
      typeUrls base mapping
          (entries.filter fun e => !missingModuleRecord mapping e)
        = Except.ok (out.1, 0) := by
  intro entries
  induction entries with
  | nil =>
    intro out h
    rw [typeUrls] at h
    cases h
    exact ⟨rfl, rfl⟩
  | cons e es ih =>
    intro out h
    cases e with
    | obj kvs =>
      by_cases hv : validTypeRecord kvs = true
      · rcases validTypeRecord_inv kvs hv with ⟨pn, tn, hp, hl, hpne, htne⟩
        cases hm : dictGet mapping pn with
        | none =>
          rw [typeUrls_cons_missing base mapping kvs es pn tn hp hl hpne htne hm]
            at h
          cases htu : typeUrls base mapping es with
          | error e2 => rw [htu] at h; cases h
          | ok r =>
            rw [htu] at h
            cases h
            rcases ih r htu with ⟨hcount, hfilter⟩
            have hmiss : missingModuleRecord mapping (Json.obj kvs) = true := by
              rw [missingModuleRecord_obj mapping kvs pn tn hp hl hpne htne, hm]
              rfl
            constructor
            · simp only [List.countP_cons, hmiss, if_pos]
              omega
            · rw [List.filter_cons]
              simp only [hmiss, Bool.not_true]
              simpa using hfilter
        | some mn =>
          rw [typeUrls] at h
          simp only [hp, hl] at h
          rw [if_pos ⟨hpne, htne⟩] at h
          simp only [hm] at h
          cases hu1 : urljoin base (mn ++ "/" ++ package_path pn ++ "/" ++
              (tn ++ ".html")) with
          | error e2 => rw [hu1] at h; cases h
          | ok u1 =>
            rw [hu1] at h
            cases hu2 : urljoin base (mn ++ "/" ++ package_path pn ++
                "/class-use/" ++ (tn ++ ".html")) with
            | error e2 => rw [hu2] at h; cases h
            | ok u2 =>
              rw [hu2] at h
              cases htu : typeUrls base mapping es with
              | error e2 => rw [htu] at h; cases h
              | ok r =>
                rw [htu] at h
                cases h
                rcases ih r htu with ⟨hcount, hfilter⟩
                have hmiss : missingModuleRecord mapping (Json.obj kvs) = false := by
                  rw [missingModuleRecord_obj mapping kvs pn tn hp hl hpne htne, hm]
                  rfl
                constructor
                · simp only [List.countP_cons, hmiss]
                  simp [hcount]
                · rw [List.filter_cons]
                  simp only [hmiss, Bool.not_false, if_pos]
                  rw [typeUrls_cons_found base mapping kvs
                    (es.filter fun e => !missingModuleRecord mapping e)
                    pn tn mn u1 u2 hp hl hpne htne hm hu1 hu2, hfilter]
                  rfl
      · have hvf : validTypeRecord kvs = false := by
          cases hx : validTypeRecord kvs with
          | true => exact absurd hx hv
          | false => rfl
        rw [typeUrls_cons_invalid base mapping kvs es hvf] at h
        rcases ih out h with ⟨hcount, hfilter⟩
        have hmiss : missingModuleRecord mapping (Json.obj kvs) = false :=
          missingModuleRecord_obj_invalid mapping kvs hvf
        constructor
        · simp only [List.countP_cons, hmiss]
          simp [hcount]
        · rw [List.filter_cons]
          simp only [hmiss, Bool.not_false, if_pos]
          rw [typeUrls_cons_invalid base mapping kvs
            (es.filter fun e => !missingModuleRecord mapping e) hvf]
          exact hfilter
    | null => exact Except.noConfusion h
    | bool b => exact Except.noConfusion h
    | num m e2 => exact Except.noConfusion h
    | str s => exact Except.noConfusion h
    | arr xs => exact Except.noConfusion h
    | nanConst => exact Except.noConfusion h
    | infConst ng => exact Except.noConfusion h

/-! ## Lemmas: the package-to-module dict -/

theorem dictGet_nil (q : String) : dictGet [] q = none := rfl

theorem dictGet_cons (p : String × String) (rest : List (String × String))
    (q : String) :
    dictGet (p :: rest) q = if p.1 == q then some p.2 else dictGet rest q := by
  by_cases h : (p.1 == q) = true
  · simp [dictGet, List.find?, h]
  · have h2 : (p.1 == q) = false := by
      cases hx : (p.1 == q) with
      | true => exact absurd hx h
      | false => rfl
    simp [dictGet, List.find?, h2]

theorem mem_dictSet (k v : String) :
    ∀ (d : List (String × String)) (kv : String × String),
      kv ∈ dictSet d k v → kv = (k, v) ∨ kv ∈ d := by
  intro d
  induction d with
  | nil =>
    intro kv h
    rw [dictSet] at h
    rcases List.mem_cons.mp h with hk | hk
    · exact Or.inl hk
    · cases hk
  | cons p rest ih =>
    intro kv h
    rw [dictSet] at h
    by_cases hk : p.1 = k
    · rw [if_pos hk] at h
      rcases List.mem_cons.mp h with h1 | h1
      · exact Or.inl h1
      · exact Or.inr (List.mem_cons_of_mem p h1)
    · rw [if_neg hk] at h
      rcases List.mem_cons.mp h with h1 | h1
      · exact Or.inr (h1 ▸ List.mem_cons_self p rest)
      · rcases ih kv h1 with h2 | h2
        · exact Or.inl h2
        · exact Or.inr (List.mem_cons_of_mem p h2)

theorem dictGet_dictSet (k v q : String) :
    ∀ d : List (String × String),
      dictGet (dictSet d k v) q = if q = k then some v else dictGet d q := by
  intro d
  induction d with
  | nil =>
    rw [dictSet, dictGet_cons, dictGet_nil]
    by_cases hq : q = k
    · simp [hq]
    · have h1 : (k == q) = false := by
        simp only [beq_eq_false_iff_ne, ne_eq]
        exact fun hkq => hq hkq.symm
      simp [h1, hq]
  | cons p rest ih =>
    rw [dictSet]
    by_cases hk : p.1 = k
    · rw [if_pos hk, dictGet_cons, dictGet_cons]
      by_cases hq : q = k
      · simp [hq]
      · have h1 : (k == q) = false := by
          simp only [beq_eq_false_iff_ne, ne_eq]
          exact fun hkq => hq hkq.symm
        have h2 : (p.1 == q) = false := by
          simp only [beq_eq_false_iff_ne, ne_eq]
          intro hpq
          exact hq (by rw [← hpq, hk])
        simp [h1, h2, hq]
    · rw [if_neg hk, dictGet_cons, dictGet_cons]
      by_cases hpq : (p.1 == q) = true
      · have hq : ¬ q = k := by
          have hp1 : p.1 = q := by simpa using hpq
          intro hqk
          exact hk (by rw [hp1, hqk])
        simp [hpq, hq]
      · have hpq2 : (p.1 == q) = false := by
          cases hx : (p.1 == q) with
          | true => exact absurd hx hpq
          | false => rfl
        simp [hpq2, ih]

/-! ## Lemmas: `build_package_to_module` step shapes -/

theorem validPkgRecord_inv (kvs : List (String × Json))
    (h : validPkgRecord kvs = true) :
    ∃ mo pa, jget kvs "m" = some (Json.str mo) ∧
      jget kvs "l" = some (Json.str pa) ∧ mo ≠ "" ∧ pa ≠ "" := by
  unfold validPkgRecord at h
  cases hm : jget kvs "m" with
  | none => rw [hm] at h; cases h
  | some vm =>
    rw [hm] at h
    cases hl : jget kvs "l" with
    | none =>
      rw [hl] at h
      cases vm <;> cases h
    | some vl =>
      rw [hl] at h
      cases vm with
      | str mo =>
        cases vl with
        | str pa =>
          refine ⟨mo, pa, rfl, rfl, ?_, ?_⟩ <;>
            (simp only [bne_iff_ne, ne_eq, Bool.and_eq_true,
              decide_eq_true_eq] at h; tauto)
        | null => cases h
        | bool b => cases h
        | num m2 e2 => cases h
        | arr xs => cases h
        | obj o => cases h
        | nanConst => cases h
        | infConst ng => cases h
      | null => cases h
      | bool b => cases h
      | num m2 e2 => cases h
      | arr xs => cases h
      | obj o => cases h
      | nanConst => cases h
      | infConst ng => cases h

theorem build_p2m_cons_valid (acc : List (String × String))
    (kvs : List (String × Json)) (es : List Json) (mo pa : String)
    (hm : jget kvs "m" = some (Json.str mo))
    (hl : jget kvs "l" = some (Json.str pa))
    (hc : mo ≠ "" ∧ pa ≠ "") :
    build_p2m_loop acc (Json.obj kvs :: es)
      = build_p2m_loop (dictSet acc pa mo) es := by
  rw [build_p2m_loop]
  simp only [hm, hl]
  rw [if_pos hc]

theorem build_p2m_cons_skip (acc : List (String × String))
    (kvs : List (String × Json)) (es : List Json)
    (h : validPkgRecord kvs = false) :
    build_p2m_loop acc (Json.obj kvs :: es) = build_p2m_loop acc es := by
  rw [build_p2m_loop]
  split
  case _ moduleName packageName hm hl =>
    unfold validPkgRecord at h
    rw [hm, hl] at h
    simp only [bne_iff_ne, ne_eq, Bool.and_eq_false_iff,
      decide_eq_false_iff_not, not_not] at h
    rw [if_neg]
    intro hcon
    rcases hcon with ⟨h1, h2⟩
    rcases h with hf | hf <;> simp_all
  case _ => rfl

theorem lastModuleFor_eq_foldl (pi : List Json) (q : String) :
    lastModuleFor pi q = pi.foldl (lastModuleStep q) none := rfl

theorem lastModuleStep_valid (q : String) (a : Option String)
    (kvs : List (String × Json)) (mo pa : String)
    (hm : jget kvs "m" = some (Json.str mo))
    (hl : jget kvs "l" = some (Json.str pa))
    (hc : mo ≠ "" ∧ pa ≠ "") :
    lastModuleStep q a (Json.obj kvs)
      = if pa = q then some mo else a := by
  simp only [lastModuleStep, hm, hl]
  by_cases hq : pa = q
  · rw [if_pos ⟨hc.1, hc.2, hq⟩, if_pos hq]
  · rw [if_neg (by tauto), if_neg hq]

theorem lastModuleStep_skip (q : String) (a : Option String)
    (kvs : List (String × Json)) (h : validPkgRecord kvs = false) :
    lastModuleStep q a (Json.obj kvs) = a := by
  rw [lastModuleStep]
  split
  case _ mo pa hm hl =>
    unfold validPkgRecord at h
    rw [hm, hl] at h
    simp only [bne_iff_ne, ne_eq, Bool.and_eq_false_iff,
      decide_eq_false_iff_not, not_not] at h
    rw [if_neg]
    intro hcon
    rcases hcon with ⟨h1, h2, h3⟩
    rcases h with hf | hf <;> simp_all
  case _ => rfl

theorem lastModuleStep_nonobj (q : String) (a : Option String) :
    ∀ e : Json, (∀ kvs, e ≠ Json.obj kvs) → lastModuleStep q a e = a := by
  intro e he
  cases e with
  | obj kvs => exact absurd rfl (he kvs)
  | null => rfl
  | bool b => rfl
  | num m2 e2 => rfl
  | str s => rfl
  | arr xs => rfl
  | nanConst => rfl
  | infConst ng => rfl

theorem foldl_lastModuleStep_init (q : String) :
    ∀ (es : List Json) (a : Option String),
      es.foldl (lastModuleStep q) a
        = match es.foldl (lastModuleStep q) none with
          | some v => some v
          | none => a := by
  intro es
  induction es with
  | nil => intro a; rfl
  | cons e es2 ih =>
    intro a
    rw [List.foldl_cons, List.foldl_cons, ih (lastModuleStep q none e),
      ih (lastModuleStep q a e)]
    cases hx : es2.foldl (lastModuleStep q) none with
    | some v => rfl
    | none =>
      cases e with
      | obj kvs =>
        by_cases hv : validPkgRecord kvs = true
        · rcases validPkgRecord_inv kvs hv with ⟨mo, pa, hm, hl, hc1, hc2⟩
          rw [lastModuleStep_valid q a kvs mo pa hm hl ⟨hc1, hc2⟩,
            lastModuleStep_valid q none kvs mo pa hm hl ⟨hc1, hc2⟩]
          by_cases hq : pa = q
          · rw [if_pos hq, if_pos hq]
          · rw [if_neg hq, if_neg hq]
        · have hvf : validPkgRecord kvs = false := by
            cases hz : validPkgRecord kvs with
            | true => exact absurd hz hv
            | false => rfl
          rw [lastModuleStep_skip q a kvs hvf, lastModuleStep_skip q none kvs hvf]
      | null => rfl
      | bool b => rfl
      | num m2 e2 => rfl
      | str s => rfl
      | arr xs => rfl
      | nanConst => rfl
      | infConst ng => rfl

theorem build_p2m_loop_inv (q : String) :
    ∀ (pi : List Json) (acc m : List (String × String)),
      build_p2m_loop acc pi = Except.ok m →
      dictGet m q
        = match lastModuleFor pi q with
          | some v => some v
          | none => dictGet acc q := by
  intro pi
  induction pi with
  | nil =>
    intro acc m h
    rw [build_p2m_loop] at h
    cases h
    rfl
  | cons e es ih =>
    intro acc m h
    have hlast : lastModuleFor (e :: es) q
        = match lastModuleFor es q with
          | some v => some v
          | none => lastModuleStep q none e := by
      rw [lastModuleFor_eq_foldl, List.foldl_cons,
        foldl_lastModuleStep_init q es (lastModuleStep q none e),
        ← lastModuleFor_eq_foldl]
    cases e with
    | obj kvs =>
      by_cases hv : validPkgRecord kvs = true
      · rcases validPkgRecord_inv kvs hv with ⟨mo, pa, hm, hl, hc1, hc2⟩
        rw [build_p2m_cons_valid acc kvs es mo pa hm hl ⟨hc1, hc2⟩] at h
        rw [ih (dictSet acc pa mo) m h, hlast,
          lastModuleStep_valid q none kvs mo pa hm hl ⟨hc1, hc2⟩,
          dictGet_dictSet]
        cases lastModuleFor es q with
        | some v => rfl
        | none =>
          by_cases hq : pa = q
          · rw [if_pos hq, if_pos hq.symm]
          · rw [if_neg hq, if_neg (fun hqp => hq hqp.symm)]
      · have hvf : validPkgRecord kvs = false := by
          cases hz : validPkgRecord kvs with
          | true => exact absurd hz hv
          | false => rfl
        rw [build_p2m_cons_skip acc kvs es hvf] at h
        rw [ih acc m h, hlast, lastModuleStep_skip q none kvs hvf]
        cases lastModuleFor es q with
        | some v => rfl
        | none => rfl
    | null => exact Except.noConfusion h
    | bool b => exact Except.noConfusion h
    | num m2 e2 => exact Except.noConfusion h
    | str s => exact Except.noConfusion h
    | arr xs => exact Except.noConfusion h
    | nanConst => exact Except.noConfusion h
    | infConst ng => exact Except.noConfusion h

theorem build_p2m_loop_entries :
    ∀ (pi : List Json) (acc m : List (String × String)),
      build_p2m_loop acc pi = Except.ok m →
      (∀ kv ∈ acc, kv.1 ≠ "" ∧ kv.2 ≠ "") →
      ∀ kv ∈ m, kv.1 ≠ "" ∧ kv.2 ≠ "" := by
  intro pi
  induction pi with
  | nil =>
    intro acc m h hacc
    rw [build_p2m_loop] at h
    cases h
    exact hacc
  | cons e es ih =>
    intro acc m h hacc
    cases e with
    | obj kvs =>
      by_cases hv : validPkgRecord kvs = true
      · rcases validPkgRecord_inv kvs hv with ⟨mo, pa, hm, hl, hc1, hc2⟩
        rw [build_p2m_cons_valid acc kvs es mo pa hm hl ⟨hc1, hc2⟩] at h
        refine ih (dictSet acc pa mo) m h ?_
        intro kv hkv
        rcases mem_dictSet pa mo acc kv hkv with h1 | h1
        · rw [h1]
          exact ⟨hc2, hc1⟩
        · exact hacc kv h1
      · have hvf : validPkgRecord kvs = false := by
          cases hz : validPkgRecord kvs with
          | true => exact absurd hz hv
          | false => rfl
        rw [build_p2m_cons_skip acc kvs es hvf] at h
        exact ih acc m h hacc
    | null => exact Except.noConfusion h
    | bool b => exact Except.noConfusion h
    | num m2 e2 => exact Except.noConfusion h
    | str s => exact Except.noConfusion h
    | arr xs => exact Except.noConfusion h
    | nanConst => exact Except.noConfusion h
    | infConst ng => exact Except.noConfusion h

/-! ## Lemmas: inversion of `generate_seed_urls_core` -/

theorem core_inv (b p t h : String) (c : SeedOutcome)
    (hc : generate_seed_urls_core b p t h = Except.ok c) :
    ∃ pi ti mapping ru iu mu pu tu,
      parse_assigned_json_array p "packageSearchIndex" = Except.ok pi ∧
      parse_assigned_json_array t "typeSearchIndex" = Except.ok ti ∧
      build_package_to_module pi = Except.ok mapping ∧
      mapUrljoin (normalizeBase b) root_pages = Except.ok ru ∧
      mapUrljoin (normalizeBase b)
        ((pySortedSet (pySetAdd (parse_index_files h) "index-1.html")).map
          (fun idx => "index-files/" ++ idx)) = Except.ok iu ∧
      mapUrljoin (normalizeBase b)
        ((pySortedSet (mapping.map (fun kv => kv.2))).map
          (fun m => m ++ "/module-summary.html")) = Except.ok mu ∧
      mapUrljoin (normalizeBase b)
        (mapping.flatMap (fun kv =>
          let package_dir := kv.2 ++ "/" ++ package_path kv.1
          [package_dir ++ "/package-summary.html",
           package_dir ++ "/package-tree.html",
           package_dir ++ "/package-use.html"])) = Except.ok pu ∧
      typeUrls (normalizeBase b) mapping ti = Except.ok tu ∧
      c = ⟨ru ++ iu ++ mu ++ pu ++ tu.1, tu.2, mapping⟩ := by
  unfold generate_seed_urls_core at hc
  cases h1 : parse_assigned_json_array p "packageSearchIndex" with
  | error e => simp only [h1] at hc; exact Except.noConfusion hc
  | ok pi =>
    simp only [h1] at hc
    cases h2 : parse_assigned_json_array t "typeSearchIndex" with
    | error e => simp only [h2] at hc; exact Except.noConfusion hc
    | ok ti =>
      simp only [h2] at hc
      cases h3 : build_package_to_module pi with
      | error e => simp only [h3] at hc; exact Except.noConfusion hc
      | ok mapping =>
        simp only [h3] at hc
        cases h4 : mapUrljoin (normalizeBase b) root_pages with
        | error e => simp only [h4] at hc; exact Except.noConfusion hc
        | ok ru =>
          simp only [h4] at hc
          cases h5 : mapUrljoin (normalizeBase b)
              ((pySortedSet (pySetAdd (parse_index_files h) "index-1.html")).map
                (fun idx => "index-files/" ++ idx)) with
          | error e => simp only [h5] at hc; exact Except.noConfusion hc
          | ok iu =>
            simp only [h5] at hc
            cases h6 : mapUrljoin (normalizeBase b)
                ((pySortedSet (mapping.map (fun kv => kv.2))).map
                  (fun m => m ++ "/module-summary.html")) with
            | error e => simp only [h6] at hc; exact Except.noConfusion hc
            | ok mu =>
              simp only [h6] at hc
              cases h7 : mapUrljoin (normalizeBase b)
                  (mapping.flatMap (fun kv =>
                    let package_dir := kv.2 ++ "/" ++ package_path kv.1
                    [package_dir ++ "/package-summary.html",
                     package_dir ++ "/package-tree.html",
                     package_dir ++ "/package-use.html"])) with
              | error e => simp only [h7] at hc; exact Except.noConfusion hc
              | ok pu =>
                simp only [h7] at hc
                cases h8 : typeUrls (normalizeBase b) mapping ti with
                | error e => simp only [h8] at hc; exact Except.noConfusion hc
                | ok tu =>
                  simp only [h8] at hc
                  cases hc
                  refine ⟨pi, ti, mapping, ru, iu, mu, pu, tu, ?_, ?_, ?_, ?_,
                    ?_, ?_, ?_, ?_, rfl⟩ <;> first | rfl | assumption

/-! ## Concrete evaluation of the example run -/

theorem exampleMatchPkg :
    matchAssignedArray (pyStrip examplePackageJs.data) "packageSearchIndex".data
      = some "[\x7b\"m\":\"java.base\",\"l\":\"java.lang\"\x7d]".data := rfl

theorem exampleParsePkg :
    parse_assigned_json_array examplePackageJs "packageSearchIndex"
      = Except.ok [examplePkgEntry] := by
  unfold parse_assigned_json_array
  rw [exampleMatchPkg]
  rfl

theorem exampleMatchType :
    matchAssignedArray (pyStrip exampleTypeJsEmpty.data) "typeSearchIndex".data
      = some "[]".data := rfl

theorem exampleParseType :
    parse_assigned_json_array exampleTypeJsEmpty "typeSearchIndex"
      = Except.ok [] := by
  unfold parse_assigned_json_array
  rw [exampleMatchType]
  rfl

theorem exampleCore :
    generate_seed_urls_core exampleBase examplePackageJs exampleTypeJsEmpty ""
      = Except.ok exampleOutcome := by
  unfold generate_seed_urls_core
  rw [exampleParsePkg, exampleParseType]
  rfl

set_option maxRecDepth 8192 in
theorem exampleGen :
    generate_seed_urls exampleBase examplePackageJs exampleTypeJsEmpty ""
      = Except.ok exampleSortedUrls := by
  unfold generate_seed_urls
  rw [exampleCore]
  rfl

/-! ## The claims -/

/-- C1: the claim reads the extractor as returning every filename of the
form index-N.html occurring as an href value; but the raw-string pattern
the source passes to `re` contains a literal backslash (`\\\\.` in the raw
string), so a plain `href="index-2.html"` never matches and the extractor
returns the empty set, while an href containing a literal backslash
(`index-2\\.html`) does match.  The code contradicts its own comment
("Collect all \"index-N.html\" references"): a code bug, as spec section 9
already suspects. -/
theorem c1_parse_index_files_backslash_regex :
    parse_index_files "<li><a href=\"index-2.html\">2</a></li>" = [] ∧
    parse_index_files "<a href=\"index-2\\.html\">x</a>" = ["index-2\\.html"] :=
  ⟨rfl, rfl⟩

/-- C4: parsing the embedded text
`packageSearchIndex = [...];updateSearchResults();` with expected identifier
packageSearchIndex and folding the result into the package-to-module mapping
yields exactly the mapping java.lang to java.base. -/
theorem c4_parse_and_fold_example :
    (parse_assigned_json_array examplePackageJs "packageSearchIndex").bind
        build_package_to_module
      = Except.ok [("java.lang", "java.base")] := by
  rw [exampleParsePkg]
  rfl

/-- C5: if package P maps to module M in the mapping, the raw url set of the
run contains the module-summary URL for M and the package-summary,
package-tree and package-use URLs for P under M/<package-path>/ (each as the
successful join against the normalized base); and on the spec's concrete
example the two named URLs appear in the emitted output. -/
theorem c5_package_module_urls :
    (∀ (b p t h : String) (c : SeedOutcome) (P M : String),
      generate_seed_urls_core b p t h = Except.ok c →
      (P, M) ∈ c.package_to_module →
      (∃ u, urljoin (normalizeBase b) (M ++ "/module-summary.html")
          = Except.ok u ∧ u ∈ c.urls) ∧
      (∃ u, urljoin (normalizeBase b)
            (M ++ "/" ++ package_path P ++ "/package-summary.html")
          = Except.ok u ∧ u ∈ c.urls) ∧
      (∃ u, urljoin (normalizeBase b)
            (M ++ "/" ++ package_path P ++ "/package-tree.html")
          = Except.ok u ∧ u ∈ c.urls) ∧
      (∃ u, urljoin (normalizeBase b)
            (M ++ "/" ++ package_path P ++ "/package-use.html")
          = Except.ok u ∧ u ∈ c.urls)) ∧
    okContains (generate_seed_urls exampleBase examplePackageJs exampleTypeJsEmpty "")
      "https://example.com/docs/api/java.base/module-summary.html" = true ∧
    okContains (generate_seed_urls exampleBase examplePackageJs exampleTypeJsEmpty "")
      "https://example.com/docs/api/java.base/java/lang/package-summary.html" = true := by
  refine ⟨?_, ?_, ?_⟩
  · intro b p t h c P M hc hPM
    rcases core_inv b p t h c hc with
      ⟨pi, ti, mapping, ru, iu, mu, pu, tu, _, _, _, _, h5, h6, h7, _, hcval⟩
    subst hcval
    have hMmem : (M ++ "/module-summary.html")
        ∈ (pySortedSet (mapping.map (fun kv => kv.2))).map
          (fun m => m ++ "/module-summary.html") := by
      apply List.mem_map.mpr
      refine ⟨M, ?_, rfl⟩
      rw [mem_pySortedSet]
      exact List.mem_map.mpr ⟨(P, M), hPM, rfl⟩
    rcases mapUrljoin_ok_mem (normalizeBase b) _ mu h6 _ hMmem with ⟨u1, hu1, hu1m⟩
    have hflat : ∀ s ∈ [M ++ "/" ++ package_path P ++ "/package-summary.html",
        M ++ "/" ++ package_path P ++ "/package-tree.html",
        M ++ "/" ++ package_path P ++ "/package-use.html"],
        s ∈ mapping.flatMap (fun kv =>
          let package_dir := kv.2 ++ "/" ++ package_path kv.1
          [package_dir ++ "/package-summary.html",
           package_dir ++ "/package-tree.html",
           package_dir ++ "/package-use.html"]) := by
      intro s hs
      apply List.mem_flatMap.mpr
      exact ⟨(P, M), hPM, hs⟩
    refine ⟨⟨u1, hu1, ?_⟩, ?_, ?_, ?_⟩
    · simp [hu1m]
    · rcases mapUrljoin_ok_mem (normalizeBase b) _ pu h7 _
          (hflat (M ++ "/" ++ package_path P ++ "/package-summary.html")
            (List.mem_cons_self _ _)) with ⟨u2, hu2, hu2m⟩
      refine ⟨u2, hu2, ?_⟩
      simp [hu2m]
    · rcases mapUrljoin_ok_mem (normalizeBase b) _ pu h7 _
          (hflat (M ++ "/" ++ package_path P ++ "/package-tree.html")
            (List.mem_cons_of_mem _ (List.mem_cons_self _ _))) with ⟨u3, hu3, hu3m⟩
      refine ⟨u3, hu3, ?_⟩
      simp [hu3m]
    · rcases mapUrljoin_ok_mem (normalizeBase b) _ pu h7 _
          (hflat (M ++ "/" ++ package_path P ++ "/package-use.html")
            (List.mem_cons_of_mem _
              (List.mem_cons_of_mem _ (List.mem_cons_self _ _)))) with ⟨u4, hu4, hu4m⟩
      refine ⟨u4, hu4, ?_⟩
      simp [hu4m]
  · rw [exampleGen]
    rfl
  · rw [exampleGen]
    rfl

theorem c5_witness :
    (∃ u, urljoin (normalizeBase exampleBase) ("java.base" ++ "/module-summary.html")
        = Except.ok u ∧ u ∈ exampleOutcome.urls) ∧
    okContains (generate_seed_urls exampleBase examplePackageJs exampleTypeJsEmpty "")
      "https://example.com/docs/api/java.base/module-summary.html" = true :=
  ⟨(c5_package_module_urls.1 exampleBase examplePackageJs exampleTypeJsEmpty ""
      exampleOutcome "java.lang" "java.base" exampleCore
      (List.mem_cons_self _ _)).1,
    c5_package_module_urls.2.1⟩

/-- C6: whatever the letter-index HTML contains (even no matching link at
all), the URL for index-1.html under the index-files/ subdirectory of the
normalized base is in the raw url set, and its encoding is among the emitted
lines whenever the run completes. -/
theorem c6_index1_always_present :
    ∀ (b p t h : String) (c : SeedOutcome),
      generate_seed_urls_core b p t h = Except.ok c →
      ∃ u, urljoin (normalizeBase b) "index-files/index-1.html" = Except.ok u ∧
        u ∈ c.urls ∧
        ∀ L, generate_seed_urls b p t h = Except.ok L →
          ∃ e, encode_url u = Except.ok e ∧ e ∈ L := by
  intro b p t h c hc
  rcases core_inv b p t h c hc with
    ⟨pi, ti, mapping, ru, iu, mu, pu, tu, _, _, _, _, h5, _, _, _, hcval⟩
  have hidx : "index-1.html" ∈ pySortedSet (pySetAdd (parse_index_files h) "index-1.html") := by
    rw [mem_pySortedSet, mem_pySetAdd]
    exact Or.inr rfl
  have hmem : "index-files/index-1.html"
      ∈ (pySortedSet (pySetAdd (parse_index_files h) "index-1.html")).map
        (fun idx => "index-files/" ++ idx) :=
    List.mem_map.mpr ⟨"index-1.html", hidx, rfl⟩
  rcases mapUrljoin_ok_mem (normalizeBase b) _ iu h5 _ hmem with ⟨u, hu, hum⟩
  have humc : u ∈ c.urls := by
    rw [hcval]
    simp [hum]
  refine ⟨u, hu, humc, ?_⟩
  intro L hL
  unfold generate_seed_urls at hL
  simp only [hc] at hL
  exact mapEncode_ok_mem (pySortedSet c.urls) L hL u ((mem_pySortedSet u c.urls).mpr humc)

theorem c6_witness :
    ∃ u, urljoin (normalizeBase exampleBase) "index-files/index-1.html"
        = Except.ok u ∧ u ∈ exampleOutcome.urls ∧
      ∀ L, generate_seed_urls exampleBase examplePackageJs exampleTypeJsEmpty ""
          = Except.ok L →
        ∃ e, encode_url u = Except.ok e ∧ e ∈ L :=
  c6_index1_always_present exampleBase examplePackageJs exampleTypeJsEmpty ""
    exampleOutcome exampleCore

/-- C3: the missing-modules counter equals the number of valid type-index
records whose package is absent from the mapping, and removing exactly those
records leaves the url list unchanged with a zero counter; in a completed
run, the final counter is that count over the parsed type index. -/
theorem c3_missing_module_counter :
    (∀ (base : String) (mapping : List (String × String)) (entries : List Json)
        (out : List String × Nat),
      typeUrls base mapping entries = Except.ok out →
      out.2 = entries.countP (missingModuleRecord mapping) ∧
      typeUrls base mapping
          (entries.filter fun e => !missingModuleRecord mapping e)
        = Except.ok (out.1, 0)) ∧
    (∀ (b p t h : String) (c : SeedOutcome),
      generate_seed_urls_core b p t h = Except.ok c →
      ∃ ti, parse_assigned_json_array t "typeSearchIndex" = Except.ok ti ∧
        c.missing_modules = ti.countP (missingModuleRecord c.package_to_module)) := by
  constructor
  · exact typeUrls_count_invariance
  · intro b p t h c hc
    rcases core_inv b p t h c hc with
      ⟨pi, ti, mapping, ru, iu, mu, pu, tu, _, h2, _, _, _, _, _, h8, hcval⟩
    refine ⟨ti, h2, ?_⟩
    rw [hcval]
    simp only [SeedOutcome.missing_modules, SeedOutcome.package_to_module]
    exact (typeUrls_count_invariance (normalizeBase b) mapping ti tu h8).1

theorem c3_witness :
    ((([] : List String), (1 : Nat)).2
        = [Json.obj [("p", Json.str "a"), ("l", Json.str "T")]].countP
            (missingModuleRecord [])) ∧
    typeUrls "/d/" []
        ([Json.obj [("p", Json.str "a"), ("l", Json.str "T")]].filter
          fun e => !missingModuleRecord [] e)
      = Except.ok ([], 0) :=
  c3_missing_module_counter.1 "/d/" []
    [Json.obj [("p", Json.str "a"), ("l", Json.str "T")]] ([], 1) rfl

/-- C7: a built package-to-module mapping has no entry with an empty package
or module (non-strings cannot occur: entries are String-typed because only
string-valued records are folded in), lookups are the last valid value seen
for the package (so duplicates resolve last-wins), and records missing
either field are skipped (they never affect `lastModuleFor`). -/
theorem c7_mapping_invariants :
    ∀ (pi : List Json) (m : List (String × String)),
      build_package_to_module pi = Except.ok m →
      (∀ kv ∈ m, kv.1 ≠ "" ∧ kv.2 ≠ "") ∧
      (∀ q, dictGet m q = lastModuleFor pi q) := by
  intro pi m h
  constructor
  · exact build_p2m_loop_entries pi [] m h (fun kv hkv => absurd hkv (List.not_mem_nil kv))
  · intro q
    rw [build_p2m_loop_inv q pi [] m h]
    cases lastModuleFor pi q with
    | some v => rfl
    | none => rfl

theorem c7_witness :
    (∀ kv ∈ [("P", "M2")], (kv : String × String).1 ≠ "" ∧ kv.2 ≠ "") ∧
    (∀ q, dictGet [("P", "M2")] q
        = lastModuleFor
            [Json.obj [("m", Json.str "M1"), ("l", Json.str "P")],
             Json.obj [("m", Json.str "M2"), ("l", Json.str "P")]] q) :=
  c7_mapping_invariants
    [Json.obj [("m", Json.str "M1"), ("l", Json.str "P")],
     Json.obj [("m", Json.str "M2"), ("l", Json.str "P")]]
    [("P", "M2")] rfl

/-- C9: a type-index record whose p or l field is absent, empty or not a
string contributes nothing — neither URLs nor a counter increment — while a
valid record whose package misses the mapping increments the counter by one
and contributes no URLs: the two cases are distinguished. -/
theorem c9_invalid_records_skipped :
    ∀ (base : String) (mapping : List (String × String))
      (kvs : List (String × Json)) (es : List Json),
      (validTypeRecord kvs = false →
        typeUrls base mapping (Json.obj kvs :: es) = typeUrls base mapping es) ∧
      (∀ pn tn, jget kvs "p" = some (Json.str pn) →
        jget kvs "l" = some (Json.str tn) →
        pn ≠ "" → tn ≠ "" → dictGet mapping pn = none →
        typeUrls base mapping (Json.obj kvs :: es)
          = (typeUrls base mapping es).map (fun r => (r.1, r.2 + 1))) := by
  intro base mapping kvs es
  constructor
  · intro hv
    exact typeUrls_cons_invalid base mapping kvs es hv
  · intro pn tn hp hl hpne htne hmiss
    exact typeUrls_cons_missing base mapping kvs es pn tn hp hl hpne htne hmiss

theorem c9_witness :
    typeUrls "/d/" [] [Json.obj [("p", Json.str "")]] = typeUrls "/d/" [] [] ∧
    typeUrls "/d/" [] [Json.obj [("p", Json.str "a"), ("l", Json.str "T")]]
      = (typeUrls "/d/" [] []).map (fun r => (r.1, r.2 + 1)) :=
  ⟨(c9_invalid_records_skipped "/d/" [] [("p", Json.str "")] []).1 rfl,
   (c9_invalid_records_skipped "/d/" [] [("p", Json.str "a"), ("l", Json.str "T")]
      []).2 "a" "T" rfl rfl (by decide) (by decide) rfl⟩

/-! ## C2: the emitted sequence is not sorted in general -/

theorem cexMatchPkg :
    matchAssignedArray (pyStrip cexPackageJs.data) "packageSearchIndex".data
      = some "[\x7b\"m\":\"m\",\"l\":\"p\"\x7d]".data := rfl

theorem cexParsePkg :
    parse_assigned_json_array cexPackageJs "packageSearchIndex"
      = Except.ok [cexPkgEntry] := by
  unfold parse_assigned_json_array
  rw [cexMatchPkg]
  rfl

theorem cexMatchType :
    matchAssignedArray (pyStrip cexTypeJs.data) "typeSearchIndex".data
      = some "[\x7b\"p\":\"p\",\"l\":\"x-a\"\x7d,\x7b\"p\":\"p\",\"l\":\"x:a\"\x7d]".data := rfl

theorem cexParseType :
    parse_assigned_json_array cexTypeJs "typeSearchIndex"
      = Except.ok cexTypeEntries := by
  unfold parse_assigned_json_array
  rw [cexMatchType]
  rfl

theorem cexCore :
    generate_seed_urls_core exampleBase cexPackageJs cexTypeJs ""
      = Except.ok cexOutcome := by
  unfold generate_seed_urls_core
  rw [cexParsePkg, cexParseType]
  rfl

set_option maxRecDepth 8192 in
/-- C2 counterexample: on a valid package index, type index and letter-index
input, the emitted (encoded) lines are NOT in ascending order — the raw set
is sorted before encoding, and percent-encoding `x:a.html` to `x%3Aa.html`
moves it before `x-a.html`. -/
theorem c2_counterexample_not_sorted :
    (generate_seed_urls exampleBase cexPackageJs cexTypeJs "").map isSortedStrict
      = Except.ok false := by
  unfold generate_seed_urls
  rw [cexCore]
  rfl

/-- C2 as amended: the url set is deduplicated and sorted ascending BEFORE
percent-encoding — the pre-encoding sequence is strictly ascending and
duplicate-free, and the emitted lines are its elementwise encodings, which
are themselves sorted and duplicate-free whenever the encoder leaves each
URL unchanged (not in general: see the counterexample). -/
theorem c2_sorted_set_before_encoding :
    ∀ (b p t h : String) (c : SeedOutcome),
      generate_seed_urls_core b p t h = Except.ok c →
      isSortedStrict (pySortedSet c.urls) = true ∧
      (pySortedSet c.urls).Nodup ∧
      generate_seed_urls b p t h = mapEncode (pySortedSet c.urls) ∧
      (mapEncode (pySortedSet c.urls) = Except.ok (pySortedSet c.urls) →
        generate_seed_urls b p t h = Except.ok (pySortedSet c.urls)) := by
  intro b p t h c hc
  have hgen : generate_seed_urls b p t h = mapEncode (pySortedSet c.urls) := by
    unfold generate_seed_urls
    simp only [hc]
  exact ⟨isSortedStrict_pySortedSet c.urls, pySortedSet_nodup c.urls, hgen,
    fun hid => hgen.trans hid⟩

theorem c2_witness :
    isSortedStrict (pySortedSet exampleOutcome.urls) = true ∧
    (pySortedSet exampleOutcome.urls).Nodup ∧
    generate_seed_urls exampleBase examplePackageJs exampleTypeJsEmpty ""
      = mapEncode (pySortedSet exampleOutcome.urls) ∧
    (mapEncode (pySortedSet exampleOutcome.urls)
        = Except.ok (pySortedSet exampleOutcome.urls) →
      generate_seed_urls exampleBase examplePackageJs exampleTypeJsEmpty ""
        = Except.ok (pySortedSet exampleOutcome.urls)) :=
  c2_sorted_set_before_encoding exampleBase examplePackageJs exampleTypeJsEmpty ""
    exampleOutcome exampleCore

/-! ## C8: the greedy capture of the embedded-array regex -/

theorem pyStrip_eq_rtrim_ltrim (l : List Char) :
    pyStrip l = rtrimWS (l.dropWhile pyWS) := rfl

theorem dropWhileWS_cons_nonws (c : Char) (l : List Char) (h : pyWS c = false) :
    (c :: l).dropWhile pyWS = c :: l := by
  rw [List.dropWhile_cons, if_neg]
  simp [h]

theorem rtrimWS_append_semi (X T : List Char) :
    rtrimWS (X ++ ';' :: T) = X ++ ';' :: rtrimWS T := by
  unfold rtrimWS
  rw [List.reverse_append, List.reverse_cons, List.append_assoc,
    List.singleton_append, List.dropWhile_append]
  by_cases he : (T.reverse.dropWhile pyWS).isEmpty = true
  · rw [if_pos he]
    rw [dropWhileWS_cons_nonws ';' X.reverse rfl]
    rw [List.reverse_cons, List.reverse_reverse]
    rw [List.isEmpty_iff.mp he]
    rfl
  · rw [if_neg he]
    rw [List.reverse_append, List.reverse_cons, List.reverse_reverse]
    rw [List.append_assoc, List.singleton_append]

theorem mem_rtrimWS (x : Char) (T : List Char) (h : x ∈ rtrimWS T) : x ∈ T := by
  unfold rtrimWS at h
  rw [List.mem_reverse] at h
  exact List.mem_reverse.mp ((List.dropWhile_sublist pyWS).subset h)

theorem consumeLit_self : ∀ (n r : List Char), consumeLit n (n ++ r) = some r := by
  intro n
  induction n with
  | nil => intro r; rfl
  | cons p ps ih =>
    intro r
    rw [List.cons_append, consumeLit, if_pos (by simp)]
    exact ih r

theorem findGreedyClose_none :
    ∀ l : List Char, (∀ c ∈ l, c ≠ ']') → findGreedyClose l = none := by
  intro l
  induction l with
  | nil => intro _; rfl
  | cons c cs ih =>
    intro h
    rw [findGreedyClose, ih (fun d hd => h d (List.mem_cons_of_mem c hd))]
    have : (c == ']') = false := by
      simp only [beq_eq_false_iff_ne, ne_eq]
      exact h c (List.mem_cons_self c cs)
    rw [this]
    rfl

theorem semiAfterWS_cons_semi (T : List Char) : semiAfterWS (';' :: T) = true := by
  rw [semiAfterWS, dropWhileWS_cons_nonws ';' T rfl]
  rfl

theorem findGreedyClose_append :
    ∀ (A S : List Char), (∀ c ∈ S, c ≠ ']') → semiAfterWS S = true →
      findGreedyClose (A ++ ']' :: S) = some (A ++ [']'], S) := by
  intro A
  induction A with
  | nil =>
    intro S hS hsemi
    rw [List.nil_append, findGreedyClose, findGreedyClose_none S hS]
    simp [hsemi]
  | cons a A2 ih =>
    intro S hS hsemi
    rw [List.cons_append, findGreedyClose, ih S hS hsemi]
    rfl

set_option maxRecDepth 4096 in
/-- C8 counterexample: the input matches the claim's shape — identifier,
assignment, the JSON array `["a"]`, a semicolon, trailing statements — yet
the function fails: the greedy capture runs to the LAST bracket-semicolon,
handing `["a"];x=["b"]` to the JSON decoder, which rejects it as extra
data (the array alone decodes fine, as the second conjunct shows). -/
theorem c8_counterexample_greedy_capture :
    parse_assigned_json_array "v = [\"a\"];x=[\"b\"];" "v"
      = Except.error "json: Extra data" ∧
    jsonLoads "[\"a\"]" = Except.ok (Json.arr [Json.str "a"]) := ⟨rfl, rfl⟩

/-- C8 (amended): the format error — whose message carries the first 200
characters of the stripped input with newlines escaped — is raised exactly
when the anchored pattern fails to match; on a match the captured group runs
greedily to the last `]` followed by `;`, and `json.loads` of that group can
itself fail when a trailing statement contains `];`.  When the trailing text
contains no `]` at all, a shape-conforming input does parse to its array. -/
theorem c8_regex_match_and_errors :
    (∀ (s nm : String),
      matchAssignedArray (pyStrip s.data) nm.data = none →
      parse_assigned_json_array s nm = Except.error (formatErrorMsg s nm)) ∧
    (∀ (name arrTxt trail : String) (v : List Json),
      name.data ≠ [] →
      (∀ c ∈ name.data, pyWS c = false) →
      (∃ A, arrTxt.data = '[' :: (A ++ [']'])) →
      (∀ c ∈ trail.data, c ≠ ']') →
      jsonLoads arrTxt = Except.ok (Json.arr v) →
      parse_assigned_json_array (name ++ " = " ++ arrTxt ++ ";" ++ trail) name
        = Except.ok v) := by
  constructor
  · intro s nm hnone
    unfold parse_assigned_json_array
    rw [hnone]
  · intro name arrTxt trail v hn hws harr htrail hloads
    rcases harr with ⟨A, hA⟩
    cases hnd : name.data with
    | nil => exact absurd hnd hn
    | cons c0 ntail =>
    have hc0 : pyWS c0 = false :=
      hws c0 (by rw [hnd]; exact List.mem_cons_self c0 ntail)
    have hfull : (name ++ " = " ++ arrTxt ++ ";" ++ trail).data
        = name.data ++ ' ' :: '=' :: ' ' :: (arrTxt.data ++ ';' :: trail.data) := by
      simp only [String.data_append]
      simp [List.append_assoc]
    have hstrip : pyStrip (name ++ " = " ++ arrTxt ++ ";" ++ trail).data
        = name.data ++ ' ' :: '=' :: ' '
            :: (arrTxt.data ++ ';' :: rtrimWS trail.data) := by
      rw [pyStrip_eq_rtrim_ltrim, hfull, hnd]
      rw [List.cons_append, dropWhileWS_cons_nonws c0 _ hc0]
      have hshape : c0 :: (ntail ++ ' ' :: '=' :: ' '
              :: (arrTxt.data ++ ';' :: trail.data))
          = (c0 :: ntail ++ ' ' :: '=' :: ' ' :: arrTxt.data)
              ++ ';' :: trail.data := by
        simp [List.append_assoc]
      rw [hshape, rtrimWS_append_semi]
      simp [List.append_assoc]
    have hS : ∀ c ∈ (';' :: rtrimWS trail.data), c ≠ ']' := by
      intro c hcm
      rcases List.mem_cons.mp hcm with h | h
      · rw [h]; decide
      · exact htrail c (mem_rtrimWS c trail.data h)
    have e1 : List.dropWhile pyWS
          (c0 :: (ntail ++ ' ' :: '=' :: ' ' :: '['
            :: (A ++ ']' :: ';' :: rtrimWS trail.data)))
        = c0 :: (ntail ++ ' ' :: '=' :: ' ' :: '['
            :: (A ++ ']' :: ';' :: rtrimWS trail.data)) :=
      dropWhileWS_cons_nonws c0 _ hc0
    have e2 : consumeLit (c0 :: ntail)
          (c0 :: (ntail ++ ' ' :: '=' :: ' ' :: '['
            :: (A ++ ']' :: ';' :: rtrimWS trail.data)))
        = some (' ' :: '=' :: ' ' :: '['
            :: (A ++ ']' :: ';' :: rtrimWS trail.data)) := by
      rw [← List.cons_append]
      exact consumeLit_self _ _
    have e3 : List.dropWhile pyWS
          (' ' :: '=' :: ' ' :: '[' :: (A ++ ']' :: ';' :: rtrimWS trail.data))
        = '=' :: ' ' :: '[' :: (A ++ ']' :: ';' :: rtrimWS trail.data) := by
      rw [List.dropWhile_cons, if_pos (show pyWS ' ' = true from rfl),
        List.dropWhile_cons, if_neg (show ¬ pyWS '=' = true from by decide)]
    have e4 : List.dropWhile pyWS
          (' ' :: '[' :: (A ++ ']' :: ';' :: rtrimWS trail.data))
        = '[' :: (A ++ ']' :: ';' :: rtrimWS trail.data) := by
      rw [List.dropWhile_cons, if_pos (show pyWS ' ' = true from rfl),
        List.dropWhile_cons, if_neg (show ¬ pyWS '[' = true from by decide)]
    have e5 : findGreedyClose (A ++ ']' :: ';' :: rtrimWS trail.data)
        = some (A ++ [']'], ';' :: rtrimWS trail.data) :=
      findGreedyClose_append A _ hS (semiAfterWS_cons_semi _)
    have hmatch : matchAssignedArray
        (pyStrip (name ++ " = " ++ arrTxt ++ ";" ++ trail).data) name.data
        = some arrTxt.data := by
      rw [hstrip, hnd, hA]
      unfold matchAssignedArray
      simp only [List.cons_append, List.append_assoc, List.singleton_append,
        List.nil_append]
      simp only [e1, e2, e3, e4, e5]
    unfold parse_assigned_json_array
    simp only [hmatch]
    rw [show arrTxt.data.asString = arrTxt from rfl, hloads]

theorem c8_witness :
    parse_assigned_json_array "garbage" "v"
      = Except.error (formatErrorMsg "garbage" "v") ∧
    parse_assigned_json_array ("v" ++ " = " ++ "[\"a\"]" ++ ";" ++ "f()") "v"
      = Except.ok [Json.str "a"] :=
  ⟨c8_regex_match_and_errors.1 "garbage" "v" rfl,
   c8_regex_match_and_errors.2 "v" "[\"a\"]" "f()" [Json.str "a"]
     (by decide) (by decide) ⟨['"', 'a', '"'], rfl⟩ (by decide) rfl⟩

/-! ### C10: what the URL encoder preserves

Lemmas tracing a successful `urlsplit` and the re-splitting of the
reassembled, quoted URL: the scheme, netloc and fragment components
survive the encoder unchanged, and the encoder is the identity on
losslessly-splitting URLs with an unreserved-or-slash path and no query
or fragment. -/



theorem mem_splitOnFirst_snd {p : Char → Bool} :
    ∀ {l post : List Char} {c : Char}, (splitOnFirst p l).2 = some post →
      c ∈ post → c ∈ l
  | [], _, _, h, _ => by simp [splitOnFirst] at h
  | a :: as, post, c, h, hc => by
    rw [splitOnFirst] at h
    by_cases hp : p a
    · rw [if_pos hp] at h
      simp at h
      exact List.mem_cons_of_mem a (h ▸ hc)
    · rw [if_neg hp] at h
      simp at h
      exact List.mem_cons_of_mem a (mem_splitOnFirst_snd h hc)

theorem splitOnFirst_nomatch {p : Char → Bool} :
    ∀ {l : List Char}, (∀ c ∈ l, p c = false) → splitOnFirst p l = (l, none)
  | [], _ => rfl
  | a :: as, h => by
    rw [splitOnFirst, if_neg (by rw [h a (List.mem_cons_self a as)]; simp),
      splitOnFirst_nomatch (fun c hc => h c (List.mem_cons_of_mem a hc))]

theorem splitOnFirst_append_nomatch {p : Char → Bool} :
    ∀ {a : List Char} (x : List Char), (∀ c ∈ a, p c = false) →
      splitOnFirst p (a ++ x) = (a ++ (splitOnFirst p x).1, (splitOnFirst p x).2)
  | [], x, _ => by simp
  | b :: bs, x, h => by
    rw [List.cons_append, splitOnFirst,
      if_neg (by rw [h b (List.mem_cons_self b bs)]; simp),
      splitOnFirst_append_nomatch x (fun c hc => h c (List.mem_cons_of_mem b hc))]
    rfl

theorem splitOnFirst_found {p : Char → Bool} {d : Char} (rest : List Char)
    (hd : p d = true) : splitOnFirst p (d :: rest) = ([], some rest) := by
  rw [splitOnFirst, if_pos hd]

theorem mem_takeWhile_sub {p : Char → Bool} :
    ∀ {l : List Char} {c : Char}, c ∈ l.takeWhile p → c ∈ l
  | [], _, h => by simp [List.takeWhile] at h
  | a :: as, c, h => by
    rw [List.takeWhile_cons] at h
    by_cases hp : p a
    · rw [if_pos hp] at h
      rcases List.mem_cons.mp h with h | h
      · exact h ▸ List.mem_cons_self a as
      · exact List.mem_cons_of_mem a (mem_takeWhile_sub h)
    · rw [if_neg hp] at h; simp at h

theorem mem_takeWhile_prop {p : Char → Bool} :
    ∀ {l : List Char} {c : Char}, c ∈ l.takeWhile p → p c = true
  | [], _, h => by simp [List.takeWhile] at h
  | a :: as, c, h => by
    rw [List.takeWhile_cons] at h
    by_cases hp : p a
    · rw [if_pos hp] at h
      rcases List.mem_cons.mp h with h | h
      · exact h ▸ hp
      · exact mem_takeWhile_prop h
    · rw [if_neg hp] at h; simp at h

theorem mem_dropWhile_sub {p : Char → Bool} :
    ∀ {l : List Char} {c : Char}, c ∈ l.dropWhile p → c ∈ l
  | [], _, h => by simp [List.dropWhile] at h
  | a :: as, c, h => by
    rw [List.dropWhile_cons] at h
    by_cases hp : p a
    · rw [if_pos hp] at h
      exact List.mem_cons_of_mem a (mem_dropWhile_sub h)
    · rw [if_neg hp] at h; exact h

theorem takeWhile_append_all {p : Char → Bool} :
    ∀ {a : List Char} (x : List Char), (∀ c ∈ a, p c = true) →
      (a ++ x).takeWhile p = a ++ x.takeWhile p
  | [], x, _ => by simp
  | b :: bs, x, h => by
    rw [List.cons_append, List.takeWhile_cons,
      if_pos (h b (List.mem_cons_self b bs)),
      takeWhile_append_all x (fun c hc => h c (List.mem_cons_of_mem b hc))]
    rfl

theorem dropWhile_append_all {p : Char → Bool} :
    ∀ {a : List Char} (x : List Char), (∀ c ∈ a, p c = true) →
      (a ++ x).dropWhile p = x.dropWhile p
  | [], x, _ => by simp
  | b :: bs, x, h => by
    rw [List.cons_append, List.dropWhile_cons,
      if_pos (h b (List.mem_cons_self b bs)),
      dropWhile_append_all x (fun c hc => h c (List.mem_cons_of_mem b hc))]

theorem mem_of_contains {c : Char} {L : List Char}
    (h : L.contains c = true) : c ∈ L := by
  rw [List.contains_eq_any_beq] at h
  simp at h
  exact h


theorem mem_urlByteFilter {c : Char} {l : List Char}
    (h : c ∈ urlByteFilter l) : tabCrLf c = false := by
  have := List.of_mem_filter h
  simpa using this


theorem urlByteFilter_id {l : List Char}
    (h : ∀ c ∈ l, tabCrLf c = false) : urlByteFilter l = l := by
  rw [urlByteFilter, List.filter_eq_self]
  intro c hc
  rw [h c hc]
  rfl

theorem pyLowerChar_idem (c : Char) : pyLowerChar (pyLowerChar c) = pyLowerChar c := by
  by_cases h : asciiUpperChars.contains c = true
  · have key : ∀ d ∈ asciiUpperChars, pyLowerChar (pyLowerChar d) = pyLowerChar d := by decide
    exact key c (mem_of_contains h)
  · have hc : pyLowerChar c = c := by rw [pyLowerChar, if_neg h]
    rw [hc, hc]

theorem pyLower_idem (l : List Char) : pyLower (pyLower l) = pyLower l := by
  rw [pyLower, pyLower, List.map_map]
  exact List.map_congr_left fun c _ => pyLowerChar_idem c

theorem schemeOk_pyLower {l : List Char} (h : schemeOk l = true) :
    schemeOk (pyLower l) = true := by
  cases l with
  | nil => simp [schemeOk] at h
  | cons c cs =>
    rw [schemeOk, Bool.and_eq_true] at h
    have halpha : ∀ d ∈ asciiAlphaChars, asciiAlphaChars.contains (pyLowerChar d) = true := by
      decide
    have hsch : ∀ d ∈ schemeChars, schemeChars.contains (pyLowerChar d) = true := by
      decide
    rw [pyLower, List.map_cons, schemeOk, Bool.and_eq_true]
    constructor
    · exact halpha c (mem_of_contains h.1)
    · rw [List.all_eq_true] at h ⊢
      intro d hd
      rcases List.mem_map.mp hd with ⟨e, he, rfl⟩
      exact hsch e (mem_of_contains (h.2 e he))

theorem schemeOk_mem {l : List Char} {c : Char} (h : schemeOk l = true)
    (hc : c ∈ l) :
    asciiAlphaChars.contains c = true ∨ schemeChars.contains c = true := by
  cases l with
  | nil => simp at hc
  | cons d ds =>
    rw [schemeOk, Bool.and_eq_true] at h
    rcases List.mem_cons.mp hc with rfl | hcm
    · exact Or.inl h.1
    · exact Or.inr (List.all_eq_true.mp h.2 c hcm)

theorem schemeOk_false_of_bad {l : List Char} {c : Char} (hc : c ∈ l)
    (h1 : asciiAlphaChars.contains c = false)
    (h2 : schemeChars.contains c = false) : schemeOk l = false := by
  cases hs : schemeOk l with
  | false => rfl
  | true =>
    rcases schemeOk_mem hs hc with h | h
    · rw [h1] at h; exact absurd h (by simp)
    · rw [h2] at h; exact absurd h (by simp)

theorem schemeOk_no_colon {l : List Char} (h : schemeOk l = true) :
    ∀ c ∈ l, (c == ':') = false := by
  intro c hc
  have key : ∀ d ∈ asciiAlphaChars, (d == ':') = false := by decide
  have key2 : ∀ d ∈ schemeChars, (d == ':') = false := by decide
  rcases schemeOk_mem h hc with hm | hm
  · exact key c (mem_of_contains hm)
  · exact key2 c (mem_of_contains hm)

theorem schemeOk_no_tab {l : List Char} (h : schemeOk l = true) :
    ∀ c ∈ l, tabCrLf c = false := by
  intro c hc
  have key : ∀ d ∈ asciiAlphaChars, tabCrLf d = false := by decide
  have key2 : ∀ d ∈ schemeChars, tabCrLf d = false := by decide
  rcases schemeOk_mem h hc with hm | hm
  · exact key c (mem_of_contains hm)
  · exact key2 c (mem_of_contains hm)

theorem mem_hexUpperDigit (n : Nat) : hexUpperDigit n ∈ hexDigitsUpper := by
  rw [hexUpperDigit]
  rcases Nat.lt_or_ge n 16 with h | h
  · interval_cases n <;> decide
  · rw [List.getD_eq_default]
    · decide
    · exact h

theorem mem_pctEncodeByte {c : Char} {b : Nat} (h : c ∈ pctEncodeByte b) :
    c = '%' ∨ c ∈ hexDigitsUpper := by
  rw [pctEncodeByte] at h
  rcases List.mem_cons.mp h with rfl | h
  · exact Or.inl rfl
  rcases List.mem_cons.mp h with rfl | h
  · exact Or.inr (mem_hexUpperDigit _)
  rcases List.mem_cons.mp h with rfl | h
  · exact Or.inr (mem_hexUpperDigit _)
  · simp at h

theorem mem_quoteChar {safe : List Char} {d c : Char}
    (h : c ∈ quoteChar safe d) :
    (c = d ∧ (alwaysSafeChars.contains d || safe.contains d) = true) ∨
      c = '%' ∨ c ∈ hexDigitsUpper := by
  rw [quoteChar] at h
  by_cases hk : (alwaysSafeChars.contains d || safe.contains d) = true
  · rw [if_pos hk] at h
    simp at h
    exact Or.inl ⟨h, hk⟩
  · rw [if_neg hk] at h
    rcases List.mem_flatMap.mp h with ⟨b, _, hb⟩
    exact Or.inr (mem_pctEncodeByte hb)

theorem mem_quoteL_path {c : Char} {l : List Char}
    (h : c ∈ quoteL pathSafeChars l) : c ∈ allowedPathOut := by
  rw [quoteL] at h
  rcases List.mem_flatMap.mp h with ⟨d, _, hd⟩
  rcases mem_quoteChar hd with ⟨rfl, hk⟩ | hrest
  · rw [Bool.or_eq_true] at hk
    rcases hk with hk | hk
    · exact List.mem_append_left _ (List.mem_append_left _ (mem_of_contains hk))
    · exact List.mem_append_left _ (List.mem_append_right _ (mem_of_contains hk))
  · rcases hrest with rfl | hh
    · exact List.mem_append_right _ (List.mem_cons_self _ _)
    · exact List.mem_append_right _ (List.mem_cons_of_mem _ hh)

theorem mem_quotePlus_query {c : Char} {l : List Char}
    (h : c ∈ quotePlusL querySafeChars l) : c ∈ allowedQueryOut := by
  rw [quotePlusL] at h
  have base : ∀ {safeExtra : List Char}, safeExtra = querySafeChars ∨
      safeExtra = querySafeChars ++ [' '] →
      ∀ {e : Char}, e ∈ quoteL safeExtra l →
      e ∈ alwaysSafeChars ∨ e ∈ querySafeChars ∨ e = ' ' ∨ e = '%' ∨
        e ∈ hexDigitsUpper := by
    intro safeExtra hse e he
    rw [quoteL] at he
    rcases List.mem_flatMap.mp he with ⟨d, _, hd⟩
    rcases mem_quoteChar hd with ⟨rfl, hk⟩ | hrest
    · rw [Bool.or_eq_true] at hk
      rcases hk with hk | hk
      · exact Or.inl (mem_of_contains hk)
      · rcases hse with rfl | rfl
        · exact Or.inr (Or.inl (mem_of_contains hk))
        · rcases List.mem_append.mp (mem_of_contains hk) with hk | hk
          · exact Or.inr (Or.inl hk)
          · simp at hk
            exact Or.inr (Or.inr (Or.inl hk))
    · rcases hrest with rfl | hh
      · exact Or.inr (Or.inr (Or.inr (Or.inl rfl)))
      · exact Or.inr (Or.inr (Or.inr (Or.inr hh)))
  have pack : ∀ {e : Char}, e ∈ alwaysSafeChars ∨ e ∈ querySafeChars ∨ e = ' ' ∨
      e = '%' ∨ e ∈ hexDigitsUpper → e ∈ allowedQueryOut := by
    intro e he
    rcases he with h | h | rfl | rfl | h
    · exact List.mem_append_left _ (List.mem_append_left _ h)
    · exact List.mem_append_left _ (List.mem_append_right _ h)
    · exact List.mem_append_right _ (List.mem_cons_of_mem _ (List.mem_cons_self _ _))
    · exact List.mem_append_right _
        (List.mem_cons_of_mem _ (List.mem_cons_of_mem _ (List.mem_cons_self _ _)))
    · exact List.mem_append_right _
        (List.mem_cons_of_mem _ (List.mem_cons_of_mem _ (List.mem_cons_of_mem _ h)))
  by_cases hsp : l.contains ' ' = true
  · rw [if_pos hsp] at h
    rcases List.mem_map.mp h with ⟨d, hd, rfl⟩
    have hd2 := base (Or.inr rfl) hd
    by_cases hde : (d == ' ') = true
    · rw [if_pos hde]
      exact List.mem_append_right _ (List.mem_cons_self _ _)
    · rw [if_neg hde]
      rcases hd2 with h | h | rfl | rfl | h
      · exact pack (Or.inl h)
      · exact pack (Or.inr (Or.inl h))
      · simp at hde
      · exact pack (Or.inr (Or.inr (Or.inr (Or.inl rfl))))
      · exact pack (Or.inr (Or.inr (Or.inr (Or.inr h))))
  · rw [if_neg hsp] at h
    exact pack (base (Or.inl rfl) h)


theorem urlsplitL_eq (u d : List Char) :
    urlsplitL u d =
      (match splitOnFirst (fun c => c == ':') (urlByteFilter u) with
        | (pre, some post) =>
          if schemeOk pre then splitTail (pyLower pre) post
          else splitTail (urlByteFilter d) (urlByteFilter u)
        | (_, none) => splitTail (urlByteFilter d) (urlByteFilter u)) := by
  rw [urlsplitL]
  rcases hsp : splitOnFirst (fun c => c == ':') (urlByteFilter u) with ⟨pre, o⟩
  cases o with
  | none => rfl
  | some post =>
    by_cases hok : schemeOk pre = true
    · simp only [if_pos hok]
      rfl
    · simp only [if_neg hok]
      rfl


theorem finishSplit_netloc (s nl rest : List Char) :
    (finishSplit s nl rest).netloc = nl := rfl

theorem mem_finishSplit_fragment {s nl rest : List Char} {c : Char}
    (h : c ∈ (finishSplit s nl rest).fragment) : c ∈ rest := by
  rw [finishSplit] at h
  rcases hsp : (splitOnFirst (fun c => c == '#') rest).2 with _ | frag
  · rw [hsp] at h
    simp at h
  · rw [hsp] at h
    simp only [Option.getD_some] at h
    exact mem_splitOnFirst_snd hsp h

theorem splitTail_inv {s t : List Char} {r : SplitResult}
    (hs : s = [] ∨ schemeOk s = true) (hsl : pyLower s = s)
    (ht : ∀ c ∈ t, tabCrLf c = false)
    (h : splitTail s t = Except.ok r) :
    (∀ c ∈ r.netloc, netlocStop c = false) ∧
    bracketMismatch r.netloc = false ∧
    (r.scheme = [] ∨ schemeOk r.scheme = true) ∧
    pyLower r.scheme = r.scheme ∧
    (∀ c ∈ r.netloc, tabCrLf c = false) ∧
    (∀ c ∈ r.fragment, tabCrLf c = false) := by
  rw [splitTail.eq_def] at h
  split at h
  · next r2 =>
    by_cases hbr : bracketMismatch (r2.takeWhile (fun c => !netlocStop c)) = true
    · rw [if_pos hbr] at h
      exact Except.noConfusion h
    · rw [if_neg hbr] at h
      have hr : r = finishSplit s (r2.takeWhile (fun c => !netlocStop c))
          (r2.dropWhile (fun c => !netlocStop c)) :=
        (Except.ok.injEq _ _ ▸ h).symm
      subst hr
      refine ⟨?_, ?_, hs, hsl, ?_, ?_⟩
      · intro c hc
        rw [finishSplit_netloc] at hc
        have := mem_takeWhile_prop hc
        simpa using this
      · rw [finishSplit_netloc]
        exact Bool.eq_false_iff.mpr hbr
      · intro c hc
        rw [finishSplit_netloc] at hc
        refine ht c ?_
        refine List.mem_cons_of_mem _ (List.mem_cons_of_mem _ ?_)
        exact mem_takeWhile_sub hc
      · intro c hc
        have := mem_finishSplit_fragment hc
        refine ht c ?_
        refine List.mem_cons_of_mem _ (List.mem_cons_of_mem _ ?_)
        exact mem_dropWhile_sub this
  · next hne =>
    have hr : r = finishSplit s [] t := (Except.ok.injEq _ _ ▸ h).symm
    subst hr
    refine ⟨?_, ?_, hs, hsl, ?_, ?_⟩
    · intro c hc
      rw [finishSplit_netloc] at hc
      simp at hc
    · rw [finishSplit_netloc]
      decide
    · intro c hc
      rw [finishSplit_netloc] at hc
      simp at hc
    · intro c hc
      exact ht c (mem_finishSplit_fragment hc)

theorem urlsplit_inv {u : List Char} {r : SplitResult}
    (h : urlsplitL u [] = Except.ok r) :
    (∀ c ∈ r.netloc, netlocStop c = false) ∧
    bracketMismatch r.netloc = false ∧
    (r.scheme = [] ∨ schemeOk r.scheme = true) ∧
    pyLower r.scheme = r.scheme ∧
    (∀ c ∈ r.netloc, tabCrLf c = false) ∧
    (∀ c ∈ r.fragment, tabCrLf c = false) := by
  rw [urlsplitL_eq] at h
  have hnilf : urlByteFilter ([] : List Char) = [] := rfl
  split at h
  · next pre post heq =>
    by_cases hok : schemeOk pre = true
    · rw [if_pos hok] at h
      refine splitTail_inv (Or.inr (schemeOk_pyLower hok)) (pyLower_idem pre) ?_ h
      intro c hc
      exact mem_urlByteFilter
        (mem_splitOnFirst_snd (by rw [heq]) hc)
    · rw [if_neg hok, hnilf] at h
      refine splitTail_inv (Or.inl rfl) rfl ?_ h
      intro c hc
      exact mem_urlByteFilter hc
  · next heq =>
    rw [hnilf] at h
    refine splitTail_inv (Or.inl rfl) rfl ?_ h
    intro c hc
    exact mem_urlByteFilter hc

theorem splitOnFirst_cons_neg {p : Char → Bool} {c : Char} (cs : List Char)
    (h : p c = false) : splitOnFirst p (c :: cs) =
      (c :: (splitOnFirst p cs).1, (splitOnFirst p cs).2) := by
  rw [splitOnFirst, if_neg (by rw [h]; simp)]

theorem finishSplit_recover {s n p2 q' f : List Char}
    (hpf : ∀ c ∈ p2, ((c == '?') = false ∧ (c == '#') = false))
    (hqf : ∀ c ∈ q', (c == '#') = false) :
    finishSplit s n (p2 ++ ((if q' = [] then [] else '?' :: q') ++
        (if f = [] then [] else '#' :: f))) = ⟨s, n, p2, q', f⟩ := by
  have hnoh : ∀ c ∈ p2 ++ '?' :: q', (c == '#') = false := by
    intro c hc
    rcases List.mem_append.mp hc with hc | hc
    · exact (hpf c hc).2
    · rcases List.mem_cons.mp hc with rfl | hc
      · rfl
      · exact hqf c hc
  by_cases hq0 : q' = []
  · by_cases hf0 : f = []
    · rw [if_pos hq0, if_pos hf0]
      simp only [List.nil_append, List.append_nil]
      rw [finishSplit,
        splitOnFirst_nomatch (fun c hc => (hpf c hc).2),
        splitOnFirst_nomatch (fun c hc => (hpf c hc).1), hq0, hf0]
      simp
    · rw [if_pos hq0, if_neg hf0]
      simp only [List.nil_append]
      rw [finishSplit,
        splitOnFirst_append_nomatch ('#' :: f) (fun c hc => (hpf c hc).2),
        splitOnFirst_found f (by rfl)]
      simp only [List.append_nil]
      rw [splitOnFirst_nomatch (fun c hc => (hpf c hc).1), hq0]
      simp
  · by_cases hf0 : f = []
    · rw [if_neg hq0, if_pos hf0]
      simp only [List.append_nil]
      rw [finishSplit, splitOnFirst_nomatch hnoh,
        splitOnFirst_append_nomatch ('?' :: q') (fun c hc => (hpf c hc).1),
        splitOnFirst_found q' (by rfl), hf0]
      simp
    · rw [if_neg hq0, if_neg hf0]
      have hshape : p2 ++ ('?' :: q' ++ '#' :: f) = (p2 ++ '?' :: q') ++ '#' :: f := by
        simp [List.append_assoc]
      rw [hshape, finishSplit,
        splitOnFirst_append_nomatch ('#' :: f) hnoh,
        splitOnFirst_found f (by rfl)]
      simp only [List.append_nil]
      rw [splitOnFirst_append_nomatch ('?' :: q') (fun c hc => (hpf c hc).1),
        splitOnFirst_found q' (by rfl)]
      simp

theorem splitTail_case1 {s n X : List Char}
    (hn : ∀ c ∈ n, netlocStop c = false) (hb : bracketMismatch n = false)
    (hX : X = [] ∨ ∃ d t, X = d :: t ∧ netlocStop d = true) :
    splitTail s ('/' :: '/' :: (n ++ X)) = Except.ok (finishSplit s n X) := by
  have htake : (n ++ X).takeWhile (fun c => !netlocStop c) = n := by
    rw [takeWhile_append_all X (fun c hc => by rw [hn c hc]; rfl)]
    rcases hX with rfl | ⟨d, t, rfl, hd⟩
    · simp
    · rw [List.takeWhile_cons, if_neg (by rw [hd]; simp)]
      simp
  have hdrop : (n ++ X).dropWhile (fun c => !netlocStop c) = X := by
    rw [dropWhile_append_all X (fun c hc => by rw [hn c hc]; rfl)]
    rcases hX with rfl | ⟨d, t, rfl, hd⟩
    · simp
    · rw [List.dropWhile_cons, if_neg (by rw [hd]; simp)]
  rw [splitTail.eq_1]
  simp only [htake, hdrop]
  rw [if_neg (by rw [hb]; simp)]

theorem splitTail_case2 {s t : List Char}
    (hshape : ∀ r2, t = '/' :: '/' :: r2 → False) :
    splitTail s t = Except.ok (finishSplit s [] t) :=
  splitTail.eq_2 s t hshape

theorem urlunsplit_shape (s n p' q' f : List Char) :
    urlunsplitL ⟨s, n, p', q', f⟩ =
      (if s = [] then [] else s ++ [':']) ++
      ((if n ≠ [] ∨ p'.take 2 = ['/', '/'] then
        '/' :: '/' :: (n ++ (if p' ≠ [] ∧ p'.take 1 ≠ ['/'] then '/' :: p' else p'))
       else p') ++
      ((if q' = [] then [] else '?' :: q') ++ (if f = [] then [] else '#' :: f))) := by
  rw [urlunsplitL]
  by_cases h1 : n ≠ [] ∨ p'.take 2 = ['/', '/'] <;>
  by_cases h2 : s = [] <;>
  by_cases h3 : q' = [] <;>
  by_cases h4 : f = [] <;>
    simp [h1, h2, h3, h4, List.append_assoc]

theorem urlsplit_roundtrip {s n p' q' f : List Char}
    (hs : s = [] ∨ schemeOk s = true) (hsl : pyLower s = s)
    (hn : ∀ c ∈ n, netlocStop c = false)
    (hb : bracketMismatch n = false)
    (hnt : ∀ c ∈ n, tabCrLf c = false)
    (hft : ∀ c ∈ f, tabCrLf c = false)
    (hp : ∀ c ∈ p', c ∈ allowedPathOut)
    (hq : ∀ c ∈ q', c ∈ allowedQueryOut) :
    ∃ pp, urlsplitL (urlunsplitL ⟨s, n, p', q', f⟩) [] =
      Except.ok ⟨s, n, pp, q', f⟩ := by
  have keyP : ∀ d ∈ allowedPathOut, ((d == ':') = false ∧ (d == '?') = false ∧
      (d == '#') = false ∧ tabCrLf d = false) := by decide
  have keyQ : ∀ d ∈ allowedQueryOut, ((d == ':') = false ∧ (d == '#') = false ∧
      tabCrLf d = false) := by decide
  have hst : ∀ c ∈ s, tabCrLf c = false := by
    rcases hs with rfl | hok
    · intro c hc; simp at hc
    · exact schemeOk_no_tab hok
  have hsc : ∀ c ∈ s, (c == ':') = false := by
    rcases hs with rfl | hok
    · intro c hc; simp at hc
    · exact schemeOk_no_colon hok
  have hpc : ∀ c ∈ p', (c == ':') = false := fun c hc => (keyP c (hp c hc)).1
  have hpq' : ∀ c ∈ p', (c == '?') = false := fun c hc => (keyP c (hp c hc)).2.1
  have hph : ∀ c ∈ p', (c == '#') = false := fun c hc => (keyP c (hp c hc)).2.2.1
  have hpt : ∀ c ∈ p', tabCrLf c = false := fun c hc => (keyP c (hp c hc)).2.2.2
  have hqc : ∀ c ∈ q', (c == ':') = false := fun c hc => (keyQ c (hq c hc)).1
  have hqh : ∀ c ∈ q', (c == '#') = false := fun c hc => (keyQ c (hq c hc)).2.1
  have hqt : ∀ c ∈ q', tabCrLf c = false := fun c hc => (keyQ c (hq c hc)).2.2
  rw [urlunsplit_shape]
  set p2 := if p' ≠ [] ∧ p'.take 1 ≠ ['/'] then '/' :: p' else p' with hp2
  set qf := (if q' = [] then [] else '?' :: q') ++
      (if f = [] then [] else '#' :: f) with hqfdef
  have hp2mem : ∀ c ∈ p2, (c = '/' ∨ c ∈ p') := by
    rw [hp2]
    split
    · intro c hc
      rcases List.mem_cons.mp hc with rfl | hc
      · exact Or.inl rfl
      · exact Or.inr hc
    · intro c hc; exact Or.inr hc
  have hp2head : p2 = [] ∨ ∃ t, p2 = '/' :: t := by
    rw [hp2]
    split
    · next h => exact Or.inr ⟨p', rfl⟩
    · next h =>
      rw [Classical.not_and_iff_or_not_not] at h
      rcases h with h | h
      · simp at h
        exact Or.inl h
      · simp at h
        cases p' with
        | nil => exact Or.inl rfl
        | cons a t =>
          simp [List.take] at h
          exact Or.inr ⟨t, by rw [h]⟩
  have hqfmem : ∀ c ∈ qf, (c = '?' ∨ c ∈ q' ∨ c = '#' ∨ c ∈ f) := by
    rw [hqfdef]
    intro c hc
    rcases List.mem_append.mp hc with hc | hc
    · by_cases hq0 : q' = []
      · rw [if_pos hq0] at hc; simp at hc
      · rw [if_neg hq0] at hc
        rcases List.mem_cons.mp hc with rfl | hc
        · exact Or.inl rfl
        · exact Or.inr (Or.inl hc)
    · by_cases hf0 : f = []
      · rw [if_pos hf0] at hc; simp at hc
      · rw [if_neg hf0] at hc
        rcases List.mem_cons.mp hc with rfl | hc
        · exact Or.inr (Or.inr (Or.inl rfl))
        · exact Or.inr (Or.inr (Or.inr hc))
  have hqfhead : qf = [] ∨ ∃ d t, qf = d :: t ∧ (d = '?' ∨ d = '#') := by
    rw [hqfdef]
    by_cases hq0 : q' = []
    · rw [if_pos hq0, List.nil_append]
      by_cases hf0 : f = []
      · rw [if_pos hf0]; exact Or.inl rfl
      · rw [if_neg hf0]; exact Or.inr ⟨'#', f, rfl, Or.inr rfl⟩
    · rw [if_neg hq0]
      exact Or.inr ⟨'?', q' ++ _, rfl, Or.inl rfl⟩
  have hp2q : ∀ c ∈ p2, ((c == '?') = false ∧ (c == '#') = false) := by
    intro c hc
    rcases hp2mem c hc with rfl | hc
    · exact ⟨rfl, rfl⟩
    · exact ⟨hpq' c hc, hph c hc⟩
  have hp2t : ∀ c ∈ p2, tabCrLf c = false := by
    intro c hc
    rcases hp2mem c hc with rfl | hc
    · rfl
    · exact hpt c hc
  have hp2c : ∀ c ∈ p2, (c == ':') = false := by
    intro c hc
    rcases hp2mem c hc with rfl | hc
    · rfl
    · exact hpc c hc
  have hqft : ∀ c ∈ qf, tabCrLf c = false := by
    intro c hc
    rcases hqfmem c hc with rfl | hc | rfl | hc
    · rfl
    · exact hqt c hc
    · rfl
    · exact hft c hc
  have hnilf : urlByteFilter ([] : List Char) = [] := rfl
  by_cases h1 : n ≠ [] ∨ p'.take 2 = ['/', '/']
  · rw [if_pos h1]
    have hassoc : ('/' :: '/' :: (n ++ p2)) ++ qf
        = '/' :: '/' :: (n ++ (p2 ++ qf)) := by
      simp [List.append_assoc]
    rw [hassoc]
    have hXhead : p2 ++ qf = [] ∨
        ∃ d t, p2 ++ qf = d :: t ∧ netlocStop d = true := by
      rcases hp2head with h2 | ⟨t, h2⟩
      · rw [h2, List.nil_append]
        rcases hqfhead with h3 | ⟨d, t3, h3, hd⟩
        · exact Or.inl h3
        · refine Or.inr ⟨d, t3, h3, ?_⟩
          rcases hd with rfl | rfl <;> rfl
      · rw [h2]
        exact Or.inr ⟨'/', t ++ qf, by simp, rfl⟩
    have hsplitT : splitTail s ('/' :: '/' :: (n ++ (p2 ++ qf)))
        = Except.ok ⟨s, n, p2, q', f⟩ := by
      rw [splitTail_case1 hn hb hXhead, hqfdef]
      exact congrArg Except.ok (@finishSplit_recover s n p2 q' f hp2q hqh)
    have hU1t : ∀ c ∈ '/' :: '/' :: (n ++ (p2 ++ qf)), tabCrLf c = false := by
      intro c hc
      rcases List.mem_cons.mp hc with rfl | hc
      · rfl
      rcases List.mem_cons.mp hc with rfl | hc
      · rfl
      rcases List.mem_append.mp hc with hc | hc
      · exact hnt c hc
      rcases List.mem_append.mp hc with hc | hc
      · exact hp2t c hc
      · exact hqft c hc
    by_cases h2 : s = []
    · subst h2
      rw [if_pos rfl, List.nil_append, urlsplitL_eq, urlByteFilter_id hU1t, hnilf]
      rw [splitOnFirst_cons_neg _ (by decide)]
      rcases ho : (splitOnFirst (fun c => c == ':')
          ('/' :: (n ++ (p2 ++ qf)))).2 with _ | post
      · simp only [ho]
        exact ⟨p2, hsplitT⟩
      · simp only [ho]
        have hsch : schemeOk ('/' :: (splitOnFirst (fun c => c == ':')
            ('/' :: (n ++ (p2 ++ qf)))).1) = false :=
          schemeOk_false_of_bad (List.mem_cons_self _ _) (by decide) (by decide)
        simp only [hsch, Bool.false_eq_true, if_false]
        exact ⟨p2, hsplitT⟩
    · rw [if_neg h2]
      have hassoc2 : (s ++ [':']) ++ ('/' :: '/' :: (n ++ (p2 ++ qf)))
          = s ++ ':' :: ('/' :: '/' :: (n ++ (p2 ++ qf))) := by
        simp [List.append_assoc]
      have hU2t : ∀ c ∈ s ++ ':' :: ('/' :: '/' :: (n ++ (p2 ++ qf))),
          tabCrLf c = false := by
        intro c hc
        rcases List.mem_append.mp hc with hc | hc
        · exact hst c hc
        rcases List.mem_cons.mp hc with rfl | hc
        · rfl
        · exact hU1t c hc
      rw [hassoc2, urlsplitL_eq, urlByteFilter_id hU2t]
      rw [splitOnFirst_append_nomatch (':' :: ('/' :: '/' :: (n ++ (p2 ++ qf)))) hsc,
        splitOnFirst_found ('/' :: '/' :: (n ++ (p2 ++ qf))) (by decide)]
      simp only [List.append_nil]
      have hok : schemeOk s = true := hs.resolve_left h2
      rw [if_pos hok, hsl]
      exact ⟨p2, hsplitT⟩
  · rw [if_neg h1]
    rw [not_or] at h1
    have hn0 : n = [] := by
      rcases h1 with ⟨h1a, _⟩
      simp at h1a
      exact h1a
    have hp22 : p'.take 2 ≠ ['/', '/'] := h1.2
    subst hn0
    have hshape : ∀ r2, p' ++ qf = '/' :: '/' :: r2 → False := by
      intro r2 he
      cases p' with
      | nil =>
        rw [List.nil_append] at he
        rcases hqfhead with hq1 | ⟨d, t2, hq1, hd⟩
        · rw [hq1] at he
          exact List.noConfusion he
        · rw [hq1] at he
          injection he with he1 he2
          rcases hd with rfl | rfl <;> exact absurd he1 (by decide)
      | cons a t1 =>
        cases t1 with
        | nil =>
          rw [List.cons_append, List.nil_append] at he
          injection he with he1 he2
          subst he1
          rcases hqfhead with hq1 | ⟨d, t2, hq1, hd⟩
          · rw [hq1] at he2
            exact List.noConfusion he2
          · rw [hq1] at he2
            injection he2 with he3 he4
            rcases hd with rfl | rfl <;> exact absurd he3 (by decide)
        | cons b t2 =>
          rw [List.cons_append, List.cons_append] at he
          injection he with he1 he3
          injection he3 with he3 he4
          subst he1
          subst he3
          exact hp22 rfl
    have hsplitT : splitTail s (p' ++ qf) = Except.ok ⟨s, [], p', q', f⟩ := by
      rw [splitTail_case2 hshape, hqfdef]
      exact congrArg Except.ok
        (@finishSplit_recover s [] p' q' f
          (fun c hc => ⟨hpq' c hc, hph c hc⟩) hqh)
    have hU1t : ∀ c ∈ p' ++ qf, tabCrLf c = false := by
      intro c hc
      rcases List.mem_append.mp hc with hc | hc
      · exact hpt c hc
      · exact hqft c hc
    by_cases h2 : s = []
    · subst h2
      rw [if_pos rfl, List.nil_append, urlsplitL_eq, urlByteFilter_id hU1t, hnilf]
      by_cases hf0 : f = []
      · have hUc : ∀ c ∈ p' ++ qf, ((fun c => c == ':') c) = false := by
          intro c hc
          rcases List.mem_append.mp hc with hc | hc
          · exact hpc c hc
          rcases hqfmem c hc with rfl | hc | rfl | hc
          · rfl
          · exact hqc c hc
          · rfl
          · rw [hf0] at hc; simp at hc
        rw [splitOnFirst_nomatch hUc]
        exact ⟨p', hsplitT⟩
      · have hqfsplit : qf = (if q' = [] then [] else '?' :: q') ++ '#' :: f := by
          rw [hqfdef, if_neg hf0]
        have hassoc3 : p' ++ qf
            = (p' ++ (if q' = [] then [] else '?' :: q')) ++ '#' :: f := by
          rw [hqfsplit]
          simp [List.append_assoc]
        have hAc : ∀ c ∈ p' ++ (if q' = [] then [] else '?' :: q'),
            ((fun c => c == ':') c) = false := by
          intro c hc
          rcases List.mem_append.mp hc with hc | hc
          · exact hpc c hc
          · by_cases hq0 : q' = []
            · rw [if_pos hq0] at hc; simp at hc
            · rw [if_neg hq0] at hc
              rcases List.mem_cons.mp hc with rfl | hc
              · rfl
              · exact hqc c hc
        rw [hassoc3, splitOnFirst_append_nomatch ('#' :: f) hAc,
          splitOnFirst_cons_neg _ (by decide)]
        rcases ho : (splitOnFirst (fun c => c == ':') f).2 with _ | post
        · simp only [ho]
          rw [← hassoc3]
          exact ⟨p', hsplitT⟩
        · simp only [ho]
          have hsch : schemeOk ((p' ++ (if q' = [] then [] else '?' :: q')) ++
              '#' :: (splitOnFirst (fun c => c == ':') f).1) = false :=
            schemeOk_false_of_bad
              (List.mem_append_right _ (List.mem_cons_self _ _))
              (by decide) (by decide)
          simp only [hsch, Bool.false_eq_true, if_false]
          rw [← hassoc3]
          exact ⟨p', hsplitT⟩
    · rw [if_neg h2]
      have hassoc2 : (s ++ [':']) ++ (p' ++ qf) = s ++ ':' :: (p' ++ qf) := by
        simp [List.append_assoc]
      have hU2t : ∀ c ∈ s ++ ':' :: (p' ++ qf), tabCrLf c = false := by
        intro c hc
        rcases List.mem_append.mp hc with hc | hc
        · exact hst c hc
        rcases List.mem_cons.mp hc with rfl | hc
        · rfl
        · exact hU1t c hc
      rw [hassoc2, urlsplitL_eq, urlByteFilter_id hU2t]
      rw [splitOnFirst_append_nomatch (':' :: (p' ++ qf)) hsc,
        splitOnFirst_found (p' ++ qf) (by decide)]
      simp only [List.append_nil]
      have hok : schemeOk s = true := hs.resolve_left h2
      rw [if_pos hok, hsl]
      exact ⟨p', hsplitT⟩

theorem quoteL_id_of_safe :
    ∀ {l : List Char}, (∀ c ∈ l, unreservedOrSlash c = true) →
      quoteL pathSafeChars l = l
  | [], _ => rfl
  | c :: cs, h => by
    have hc := h c (List.mem_cons_self c cs)
    rw [unreservedOrSlash, Bool.or_eq_true] at hc
    have hkeep : (alwaysSafeChars.contains c || pathSafeChars.contains c) = true := by
      rcases hc with hc | hc
      · rw [hc]
        rfl
      · have hc2 : c = '/' := by simpa using hc
        subst hc2
        decide
    have ih := quoteL_id_of_safe (fun d hd => h d (List.mem_cons_of_mem c hd))
    rw [quoteL] at ih ⊢
    rw [List.flatMap_cons, quoteChar, if_pos hkeep, ih]
    rfl

/-- C10 (amended): splitting the encoder's output yields the same scheme,
netloc (which carries the host) and fragment as the input's own split, for
every input `urlsplit` accepts; and the encoder is the identity on every
URL that splits losslessly, whose path consists only of unreserved
characters and slashes, and whose query and fragment are empty.  The
literal claim is refuted by the counterexample: `urlsplit` lower-cases the
scheme, so a URL with an upper-case scheme letter is altered even when its
path is unreserved and its query and fragment are empty. -/
theorem c10_encode_component_preservation :
    (∀ (u : String) (r : SplitResult),
      urlsplitL u.data [] = Except.ok r →
      ∃ (out : String) (r' : SplitResult),
        encode_url u = Except.ok out ∧
        urlsplitL out.data [] = Except.ok r' ∧
        r'.scheme = r.scheme ∧ r'.netloc = r.netloc ∧ r'.fragment = r.fragment) ∧
    (∀ (u : String) (r : SplitResult),
      urlsplitL u.data [] = Except.ok r →
      urlunsplitL r = u.data →
      (∀ c ∈ r.path, unreservedOrSlash c = true) →
      r.query = [] → r.fragment = [] →
      encode_url u = Except.ok u) := by
  constructor
  · intro u r h
    obtain ⟨inv1, inv2, inv3, inv4, inv5, inv6⟩ := urlsplit_inv h
    have hout : encode_urlL u.data = Except.ok (urlunsplitL
        ⟨r.scheme, r.netloc, quoteL pathSafeChars r.path,
         quotePlusL querySafeChars r.query, r.fragment⟩) := by
      rw [encode_urlL, h]
    obtain ⟨pp, hrt⟩ := urlsplit_roundtrip inv3 inv4 inv1 inv2 inv5 inv6
      (fun c hc => mem_quoteL_path hc) (fun c hc => mem_quotePlus_query hc)
    refine ⟨(urlunsplitL ⟨r.scheme, r.netloc, quoteL pathSafeChars r.path,
        quotePlusL querySafeChars r.query, r.fragment⟩).asString,
      ⟨r.scheme, r.netloc, pp, quotePlusL querySafeChars r.query, r.fragment⟩,
      ?_, ?_, rfl, rfl, rfl⟩
    · rw [encode_url, hout]
      rfl
    · exact hrt
  · intro u r h hloss hpath hq0 hf0
    rcases r with ⟨rs, rn, rp, rq, rf⟩
    dsimp only at hq0 hf0 hpath hloss
    subst hq0
    subst hf0
    have hout : encode_urlL u.data = Except.ok (urlunsplitL
        ⟨rs, rn, quoteL pathSafeChars rp,
         quotePlusL querySafeChars [], []⟩) := by
      rw [encode_urlL, h]
    have hrec : (⟨rs, rn, quoteL pathSafeChars rp,
        quotePlusL querySafeChars [], []⟩ : SplitResult)
        = ⟨rs, rn, rp, [], []⟩ := by
      rw [quoteL_id_of_safe hpath]
      rfl
    rw [encode_url, hout, hrec, hloss]
    rfl

/-- C10 counterexample: the path of `HTTP://example.com/abc` consists only
of unreserved characters and slashes and its query and fragment are empty,
yet the encoder does not return it unchanged — the scheme is lower-cased
to `http`. -/
theorem c10_counterexample_scheme_lowercased :
    encode_url "HTTP://example.com/abc" = Except.ok "http://example.com/abc" ∧
    (∀ c ∈ ("/abc" : String).data, unreservedOrSlash c = true) ∧
    ("HTTP://example.com/abc" : String) ≠ "http://example.com/abc" :=
  ⟨rfl, by decide, by decide⟩

theorem c10_witness :
    (∃ (out : String) (r' : SplitResult),
      encode_url "http://example.com/docs?q=1#frag" = Except.ok out ∧
      urlsplitL out.data [] = Except.ok r' ∧
      r'.scheme = "http".data ∧ r'.netloc = "example.com".data ∧
      r'.fragment = "frag".data) ∧
    encode_url "http://example.com/docs/api/" =
      Except.ok "http://example.com/docs/api/" := by
  constructor
  · exact c10_encode_component_preservation.1 "http://example.com/docs?q=1#frag"
      ⟨"http".data, "example.com".data, "/docs".data, "q=1".data, "frag".data⟩ rfl
  · exact c10_encode_component_preservation.2 "http://example.com/docs/api/"
      ⟨"http".data, "example.com".data, "/docs/api/".data, [], []⟩ rfl rfl
      (by decide) rfl rfl

end OracleJavadocSeed
